import Mathlib

/-!
Verification of the Bank_Account_Analyser ingestion-to-retrieval pipeline.

The definitions below are a shallow embedding of the repository's Python
sources (`chunking.py`, `embeddings_index.py`, `app.py`, `streamlit_app.py`).
Pure functions become Lean functions; the mutable `EmbeddingsIndex` object
becomes explicit state passing; the filesystem becomes an explicit map;
the external embedding model is a parameter.  Token counting follows the
repository's own fallback heuristic in `tokens_length` (the `tiktoken`
branch is an external dependency; the spec allows any conforming counter).
-/

/-! ## Python-style string primitives (str.split, str.strip, " ".join) -/

/-- Whitespace as recognised by Python `str.split` / `str.strip`
(ASCII part: space, tab, newline, carriage return, vertical tab, form feed). -/
def pyWs (c : Char) : Bool :=
  c == ' ' || c == '\t' || c == '\n' || c == '\r' || c == '\x0b' || c == '\x0c'

/-- Helper for `pyWordsL`: scans the character list, `acc` holds the current
word reversed. -/
def splitWsAux : List Char → List Char → List (List Char)
  | [], acc => if acc.isEmpty then [] else [acc.reverse]
  | c :: cs, acc =>
    if pyWs c then
      if acc.isEmpty then splitWsAux cs [] else acc.reverse :: splitWsAux cs []
    else splitWsAux cs (c :: acc)

/-- Python `str.split()` (no argument): split on whitespace runs, dropping
empty fragments; character-list level. -/
def pyWordsL (cs : List Char) : List (List Char) := splitWsAux cs []

/-- Python `str.split()` on strings. -/
def pyWords (s : String) : List String := (pyWordsL s.data).map String.mk

/-- Python `str.strip()` on character lists. -/
def pyStripL (cs : List Char) : List Char :=
  ((cs.dropWhile pyWs).reverse.dropWhile pyWs).reverse

/-- Python `str.strip()`. -/
def pyStrip (s : String) : String := String.mk (pyStripL s.data)

/-- Python `" ".join(l)`. -/
def joinSp : List String → String
  | [] => ""
  | [s] => s
  | s :: rest => s ++ " " ++ joinSp rest

/-! ## Sentence splitting (`chunking.split_into_sentences`)

The regex is `(?<=[\.\?\!])\s+`: split on every maximal whitespace run whose
immediately preceding character is `.`, `?` or `!`. -/

/-- Sentence-ending punctuation from the `_SENT_SPLIT_RE` character class. -/
def isSentEnd (c : Char) : Bool := c == '.' || c == '?' || c == '!'

/-- State for the regex-split scan: completed segments, the current segment
reversed, and whether we are inside a separator (whitespace) run. -/
structure SentScan where
  segs : List (List Char)
  cur : List Char
  inSep : Bool

/-- Last character of the text consumed so far (head of the reversed current
segment). -/
def headSentEnd : List Char → Bool
  | p :: _ => isSentEnd p
  | [] => false

/-- One step of the `re.split` scan for `(?<=[\.\?\!])\s+`. -/
def sentStep (st : SentScan) (c : Char) : SentScan :=
  if st.inSep then
    if pyWs c then st
    else { segs := st.segs, cur := [c], inSep := false }
  else
    if pyWs c && headSentEnd st.cur then
      { segs := st.segs ++ [st.cur.reverse], cur := [], inSep := true }
    else
      { st with cur := c :: st.cur }

/-- `re.split(r'(?<=[\.\?\!])\s+', text)` as a list of segments.  A text
ending inside a separator yields a trailing empty segment, as `re.split`
does. -/
def sentSegments (cs : List Char) : List (List Char) :=
  let st := cs.foldl sentStep ⟨[], [], false⟩
  st.segs ++ [st.cur.reverse]

/-- `chunking.split_into_sentences`: strip the text, return `[]` if empty,
else regex-split and keep the stripped non-empty fragments. -/
def split_into_sentences (s : String) : List String :=
  let t := pyStrip s
  if t.data.isEmpty then []
  else ((sentSegments t.data).map (fun seg => pyStrip (String.mk seg))).filter
    (fun x => !x.data.isEmpty)

/-! ## Token counting (`chunking.tokens_length`, fallback branch)

Python: `max(1, int(len(text.split()) * 1.3))`.  For a word count `n`,
`int(n * 1.3)` equals `13 * n / 10` in integer arithmetic (the double
rounding of `1.3` never crosses an integer boundary for any list length). -/

def tokens_length (text : String) : Nat :=
  max 1 (13 * (pyWords text).length / 10)

/-! ## The chunker (`chunking.chunk_sentences_to_chunks`) -/

/-- The mutable state of the sentence loop: emitted chunks, current buffer
`cur`, and its running token total `cur_tokens`. -/
structure ChunkState where
  chunks : List String
  cur : List String
  cur_tokens : Nat
deriving Repr, DecidableEq

/-- Python's `flush()`: the chunk a non-empty buffer contributes. -/
def flushOf (cur : List String) : List String :=
  if cur.isEmpty then [] else [pyStrip (joinSp cur)]

/-- One iteration of the word loop for an over-long sentence.  Note that a
completed piece is appended directly to `chunks` without flushing `cur`. -/
def procWords (M : Nat) (acc : List String × List String × Nat) (w : String) :
    List String × List String × Nat :=
  let wt := tokens_length (w ++ " ")
  match acc with
  | (cs, piece, pt) =>
    if pt + wt > M then (cs ++ [pyStrip (joinSp piece)], [w], wt)
    else (cs, piece ++ [w], pt + wt)

/-- The whole word loop (`for w in words:`) of the over-long-sentence branch. -/
def procLongSentence (M : Nat) (cs : List String) (ws : List String) :
    List String × List String × Nat :=
  ws.foldl (procWords M) (cs, [], 0)

/-- The sentence loop (`for sent in sentences:`) of
`chunk_sentences_to_chunks`. -/
def chunkLoop (M : Nat) : List String → ChunkState → ChunkState
  | [], st => st
  | sent :: rest, st =>
    let sentTokens := tokens_length sent
    if sentTokens > M then
      match procLongSentence M st.chunks (pyWords sent) with
      | (cs, piece, pt) =>
        if piece.isEmpty then
          chunkLoop M rest { chunks := cs, cur := st.cur, cur_tokens := st.cur_tokens }
        else if st.cur_tokens + pt ≤ M then
          chunkLoop M rest
            { chunks := cs, cur := st.cur ++ [joinSp piece],
              cur_tokens := st.cur_tokens + pt }
        else
          chunkLoop M rest
            { chunks := cs ++ flushOf st.cur, cur := [joinSp piece], cur_tokens := pt }
    else if st.cur_tokens + sentTokens ≤ M then
      chunkLoop M rest
        { st with cur := st.cur ++ [sent], cur_tokens := st.cur_tokens + sentTokens }
    else
      chunkLoop M rest
        { chunks := st.chunks ++ flushOf st.cur, cur := [sent], cur_tokens := sentTokens }

/-- Last `k` elements of a list (`l[-k:]` in Python, for `k ≥ 1`). -/
def suffixK (k : Nat) (l : List String) : List String := l.drop (l.length - k)

/-- The overlap loop body applied to the remaining chunks; `prev` is the
previous *already-overlapped* chunk (`overlapped[-1]`). -/
def addOverlapGo (k : Nat) (prev : String) : List String → List String
  | [] => []
  | c :: rest =>
    let nc := joinSp (suffixK k (pyWords prev) ++ pyWords c)
    nc :: addOverlapGo k nc rest

/-- The overlap pass: `max(1, int(overlap_tokens / 1.3))` words of the
previous chunk are prepended to each chunk after the first.
`int(ov / 1.3)` equals `ov * 10 / 13` in integer arithmetic. -/
def addOverlap (ov : Nat) (chunks : List String) : List String :=
  if 0 < ov ∧ 1 < chunks.length then
    match chunks with
    | [] => []
    | c0 :: rest => c0 :: addOverlapGo (max 1 (ov * 10 / 13)) c0 rest
  else chunks

/-- `chunking.chunk_sentences_to_chunks` (fallback token counter). -/
def chunk_sentences_to_chunks (sentences : List String)
    (max_tokens : Nat := 800) (overlap_tokens : Nat := 150) : List String :=
  if sentences.isEmpty then []
  else
    let st := chunkLoop max_tokens sentences ⟨[], [], 0⟩
    addOverlap overlap_tokens (st.chunks ++ flushOf st.cur)

/-! ## Passages (`chunking.chunk_page_text`) -/

structure Passage where
  source : String
  page : Nat
  chunk_index : Nat
  text : String
  label : String
deriving Repr, DecidableEq

/-- `chunking.chunk_page_text`: chunk one page and attach provenance labels
(`chunk_index` counts from 1). -/
def chunk_page_text (page_text source : String) (page_no : Nat)
    (max_tokens : Nat := 800) (overlap_tokens : Nat := 150) : List Passage :=
  let sentences := split_into_sentences page_text
  let chunks := chunk_sentences_to_chunks sentences max_tokens overlap_tokens
  chunks.enum.map (fun pr =>
    let i := pr.1 + 1
    let c := pr.2
    { source := source, page := page_no, chunk_index := i, text := c,
      label := "(source:" ++ source ++ " page:" ++ toString page_no ++
        " chunk:" ++ toString i ++ ")\n" ++ c })

/-! ## The vector index (`embeddings_index.EmbeddingsIndex`)

The sentence-transformers encoder and FAISS are external collaborators.
The encoder is a parameter (a fallible batch function, deterministic for a
fixed model); `faiss.IndexFlatIP` is modelled by its stored vectors over ℚ
with exact inner-product search, `faiss.normalize_L2` by a vector-function
parameter (floating-point L2 normalisation is not rational); unit norm is
assumed where a claim needs it.  Exceptions become explicit error values;
the filesystem becomes an explicit pair of path maps. -/

abbrev Vec := List ℚ

/-- Inner product of two vectors (trailing entries beyond the shorter one are
ignored, as for equal-dimension FAISS vectors they do not occur). -/
def dot (u v : Vec) : ℚ := (List.zipWith (· * ·) u v).sum

/-- Squared L2 norm. -/
def sqNorm (v : Vec) : ℚ := dot v v

/-- The external encoding side: `SentenceTransformer.encode` (fallible,
batch) and `faiss.normalize_L2` (per vector). -/
structure EncCtx where
  encode : List String → Except Unit (List Vec)
  normalize : Vec → Vec

/-- The Python exceptions raised in `embeddings_index.py`:
`ValueError("No passages to index.")`, `RuntimeError("Index not built")`,
`FileNotFoundError`, and a propagated external (encoder) exception. -/
inductive EmbErr where
  | emptyPassages
  | notBuilt
  | notFound
  | external
deriving Repr, DecidableEq

/-- The mutable fields of an `EmbeddingsIndex` object: `self.index` (the
FAISS index, `None` before build/load) and `self.passages`. -/
structure EmbState where
  index : Option (List Vec)
  passages : List String
deriving Repr, DecidableEq

/-- `EmbeddingsIndex.__init__`: `self.index = None`, `self.passages = []`. -/
def EmbState.initial : EmbState := { index := none, passages := [] }

/-- The filesystem seen by `save`/`load`: FAISS index files and passage
JSON files, by path. -/
structure FS where
  indexFiles : String → Option (List Vec)
  passageFiles : String → Option (List String)

def FS.writeIndex (fs : FS) (p : String) (v : List Vec) : FS :=
  { fs with indexFiles := fun q => if q = p then some v else fs.indexFiles q }

def FS.writePassages (fs : FS) (p : String) (pl : List String) : FS :=
  { fs with passageFiles := fun q => if q = p then some pl else fs.passageFiles q }

/-- `EmbeddingsIndex.build`.  Mirrors the statement order of the source:
`self.passages = passages` is assigned *before* the encoder is called, so an
encoder failure leaves the passages already replaced. -/
def EmbeddingsIndex.build (ctx : EncCtx) (st : EmbState) (passages : List String) :
    Except EmbErr Unit × EmbState :=
  if passages.isEmpty then (.error .emptyPassages, st)
  else
    let st1 := { st with passages := passages }
    match ctx.encode passages with
    | .error _ => (.error .external, st1)
    | .ok vectors => (.ok (), { st1 with index := some (vectors.map ctx.normalize) })

/-- `EmbeddingsIndex.save`: refuses when not built, else writes the index
file and the passages file. -/
def EmbeddingsIndex.save (st : EmbState) (fs : FS) (index_path passages_path : String) :
    Except EmbErr Unit × FS :=
  match st.index with
  | none => (.error .notBuilt, fs)
  | some vecs => (.ok (), (fs.writeIndex index_path vecs).writePassages passages_path st.passages)

/-- `EmbeddingsIndex.load`: refuses when either path is missing, else
replaces both in-memory fields. -/
def EmbeddingsIndex.load (st : EmbState) (fs : FS) (index_path passages_path : String) :
    Except EmbErr Unit × EmbState :=
  match fs.indexFiles index_path, fs.passageFiles passages_path with
  | some vecs, some pl => (.ok (), { index := some vecs, passages := pl })
  | _, _ => (.error .notFound, st)

/-- `faiss.IndexFlatIP.search` on an index holding `vecs`: inner products of
the query against every stored vector, sorted descending, truncated to `k`,
padded to `k` rows with id `-1` when fewer vectors exist. -/
def faissSearch (vecs : List Vec) (q : Vec) (k : Nat) : List (Int × ℚ) :=
  let scored : List (Int × ℚ) :=
    (List.range vecs.length).map (fun i : Nat => ((i : Int), dot q (vecs.getD i [])))
  let sorted := List.insertionSort (fun a b : Int × ℚ => b.2 ≤ a.2) scored
  sorted.take k ++ List.replicate (k - vecs.length) ((-1 : Int), (0 : ℚ))

/-- One row of `EmbeddingsIndex.query`'s result:
`{"id": idx, "score": score, "passage": self.passages[idx]}`. -/
structure QueryResult where
  id : Nat
  score : ℚ
  passage : String
deriving Repr, DecidableEq

/-- `EmbeddingsIndex.query`: encode and normalise the question, search, and
keep only rows whose id lies in `[0, len(self.passages))`. -/
def EmbeddingsIndex.query (ctx : EncCtx) (st : EmbState) (q : String) (top_k : Nat) :
    Except EmbErr (List QueryResult) :=
  match st.index with
  | none => .error .notBuilt
  | some vecs =>
    match ctx.encode [q] with
    | .error _ => .error .external
    | .ok qvs =>
      let qn := ctx.normalize (qvs.headD [])
      let rows := faissSearch vecs qn top_k
      .ok ((rows.filter
          (fun p => decide (0 ≤ p.1) && decide (p.1 < (st.passages.length : Int)))).map
        (fun p => { id := p.1.toNat, score := p.2,
                    passage := st.passages.getD p.1.toNat "" }))

/-! ## Merge logic (`streamlit_app.py`, upload_index_btn handler) -/

/-- The exact-text dedupe loop: `seen` set plus order-preserving append. -/
def dedupeGo (seen : List String) (acc : List String) : List String → List String
  | [] => acc
  | p :: rest =>
    if p ∈ seen then dedupeGo seen acc rest
    else dedupeGo (p :: seen) (acc ++ [p]) rest

/-- `deduped_passages` as computed by the handler. -/
def dedupePassages (l : List String) : List String := dedupeGo [] [] l

/-- `combined_passages` (existing first) followed by the dedupe loop. -/
def mergedPassages (existing uploaded : List String) : List String :=
  dedupePassages (existing ++ uploaded)

/-- The merge path of the handler: a fresh `EmbeddingsIndex` is built from
the deduplicated combined passages. -/
def mergeIndices (ctx : EncCtx) (emb_existing emb_uploaded : EmbState) :
    Except EmbErr Unit × EmbState :=
  EmbeddingsIndex.build ctx EmbState.initial
    (mergedPassages emb_existing.passages emb_uploaded.passages)

/-! ## Ingestion (`app.ingest_files`)

A document on disk is a PDF (per page: selectable text and the OCR text its
rasterised image would produce), an image (its OCR text), or some other
existing file.  `PIL.Image.open` on a non-image raises, which the source
does not catch. -/

inductive DocContent where
  | pdf (pages : List (String × String))
  | image (ocrText : String)
  | other
deriving Repr

/-- The propagated exception when a non-PDF, non-image file reaches
`Image.open` (or a broken PDF reaches the PDF reader). -/
inductive IngestErr where
  | unsupportedFormat
deriving Repr, DecidableEq

/-- `os.path.basename` (POSIX separators): the part after the last slash. -/
def basename (p : String) : String :=
  String.mk ((p.data.reverse.takeWhile (fun c => !(c == '/'))).reverse)

/-- `os.path.splitext(name)[1].lower() == ".pdf"`: the lowercased basename
ends in `.pdf` and has a non-empty stem (`splitext` treats a leading-dot
name as extensionless). -/
def hasPdfExt (p : String) : Bool :=
  let b := (basename p).data.map Char.toLower
  decide (5 ≤ b.length) && (b.drop (b.length - 4) == ['.', 'p', 'd', 'f'])

/-- `pdf_utils.pdf_pages_text`: selectable texts when requested, else empty
placeholders that force the caller's OCR fallback. -/
def pdfPagesModel (useSel : Bool) (pages : List (String × String)) :
    List (String × String) :=
  if useSel then pages else pages.map (fun pr => ("", pr.2))

/-- The per-PDF page loop of `ingest_files`: selectable text when non-blank,
else the OCR text of the rasterised page (`images[page_no - 1]`). -/
def pdfPassages (name : String) (useSel : Bool) (maxT ovT : Nat)
    (pages : List (String × String)) : List Passage :=
  ((pdfPagesModel useSel pages).enum.map (fun pr =>
    let page_no := pr.1 + 1
    let txt := pr.2.1
    if !(pyStrip txt).data.isEmpty then chunk_page_text txt name page_no maxT ovT
    else chunk_page_text pr.2.2 name page_no maxT ovT)).flatten

/-- `app.ingest_files`: missing paths are skipped with a warning; PDFs are
chunked page-by-page; everything else is handed to `Image.open` and OCR,
and an unsupported file there raises, aborting the whole batch. -/
def ingest_files (world : String → Option DocContent) (paths : List String)
    (useSel : Bool := true) (maxT : Nat := 800) (ovT : Nat := 150) :
    Except IngestErr (List Passage) :=
  match paths with
  | [] => .ok []
  | p :: rest =>
    match world p with
    | none => ingest_files world rest useSel maxT ovT
    | some content =>
      let name := basename p
      if hasPdfExt p then
        match content with
        | .pdf pages =>
          match ingest_files world rest useSel maxT ovT with
          | .error e => .error e
          | .ok tl => .ok (pdfPassages name useSel maxT ovT pages ++ tl)
        | _ => .error .unsupportedFormat
      else
        match content with
        | .image t =>
          match ingest_files world rest useSel maxT ovT with
          | .error e => .error e
          | .ok tl => .ok (chunk_page_text t name 1 maxT ovT ++ tl)
        | _ => .error .unsupportedFormat

/-! ## Auxiliary definitions used by the development -/

/-- A word produced by `str.split()`: non-empty and whitespace-free. -/
def CleanW (w : String) : Prop := w.data ≠ [] ∧ ∀ c ∈ w.data, pyWs c = false

/-- Total word count of the buffer entries. -/
def sumWc (l : List String) : Nat := (l.map (fun s => (pyWords s).length)).sum

/-- Whether the text contains a sentence-terminating character immediately
followed by whitespace (i.e. whether `_SENT_SPLIT_RE` can match). -/
def hasBreakPair : List Char → Bool
  | a :: b :: rest => (isSentEnd a && pyWs b) || hasBreakPair (b :: rest)
  | _ => false

/-- A deterministic total encoder for concrete witnesses. -/
def encConst : EncCtx :=
  { encode := fun l => .ok (l.map (fun _ => ([1] : Vec))), normalize := id }

/-- An encoder whose external service call always fails. -/
def encFail : EncCtx := { encode := fun _ => .error (), normalize := id }

/-- An empty filesystem. -/
def fsEmpty : FS := { indexFiles := fun _ => none, passageFiles := fun _ => none }

/-- A built two-passage index state (unit vectors in one dimension). -/
def stTwo : EmbState :=
  { index := some [[(1 : ℚ)], [(-1 : ℚ)]], passages := ["p0", "p1"] }

instance {e a : Type} [DecidableEq e] [DecidableEq a] : DecidableEq (Except e a) :=
  fun x y =>
  match x, y with
  | .ok v, .ok w =>
    if h : v = w then isTrue (by rw [h]) else isFalse (fun hh => h (by injection hh))
  | .error v, .error w =>
    if h : v = w then isTrue (by rw [h]) else isFalse (fun hh => h (by injection hh))
  | .ok _, .error _ => isFalse (fun hh => Except.noConfusion hh)
  | .error _, .ok _ => isFalse (fun hh => Except.noConfusion hh)

/-- A concrete document world: one OCR-able image, one existing file of an
unsupported format, everything else missing. -/
def worldDemo : String → Option DocContent := fun p =>
  if p = "good.png" then some (.image "hello world.")
  else if p = "bad.txt" then some .other
  else none

/-! ## Lemmas: Python word splitting -/


theorem splitWsAux_clean (cs : List Char) : ∀ acc : List Char,
    (∀ c ∈ acc, pyWs c = false) →
    ∀ w ∈ splitWsAux cs acc, w ≠ [] ∧ ∀ c ∈ w, pyWs c = false := by
  induction cs with
  | nil =>
    intro acc hacc w hw
    by_cases h : acc.isEmpty
    · simp [splitWsAux, h] at hw
    · simp only [splitWsAux, h, Bool.false_eq_true, if_false, List.mem_singleton] at hw
      subst hw
      refine ⟨?_, ?_⟩
      · intro hn
        rw [List.reverse_eq_nil_iff] at hn
        simp [hn] at h
      · intro c hc
        exact hacc c (List.mem_reverse.mp hc)
  | cons c cs ih =>
    intro acc hacc w hw
    by_cases hws : pyWs c
    · by_cases h : acc.isEmpty
      · simp only [splitWsAux, hws, if_true, h] at hw
        exact ih [] (by simp) w hw
      · simp only [splitWsAux, hws, if_true, h, Bool.false_eq_true, if_false,
          List.mem_cons] at hw
        rcases hw with h1 | h1
        · subst h1
          refine ⟨?_, ?_⟩
          · intro hn
            rw [List.reverse_eq_nil_iff] at hn
            simp [hn] at h
          · intro d hd
            exact hacc d (List.mem_reverse.mp hd)
        · exact ih [] (by simp) w h1
    · simp only [splitWsAux, hws, Bool.false_eq_true, if_false] at hw
      refine ih (c :: acc) ?_ w hw
      intro d hd
      rcases List.mem_cons.mp hd with rfl | hd
      · simpa using hws
      · exact hacc d hd

theorem pyWordsL_clean (cs : List Char) :
    ∀ w ∈ pyWordsL cs, w ≠ [] ∧ ∀ c ∈ w, pyWs c = false :=
  splitWsAux_clean cs [] (by simp)

theorem pyWords_clean (s : String) : ∀ w ∈ pyWords s, CleanW w := by
  intro w hw
  rcases List.mem_map.mp hw with ⟨w', hw', rfl⟩
  rcases pyWordsL_clean s.data w' hw' with ⟨h1, h2⟩
  exact ⟨h1, h2⟩

theorem splitWsAux_sep (c : Char) (hc : pyWs c = true) (ds : List Char) :
    ∀ (cs acc : List Char),
    splitWsAux (cs ++ c :: ds) acc = splitWsAux cs acc ++ splitWsAux ds [] := by
  intro cs
  induction cs with
  | nil =>
    intro acc
    by_cases h : acc.isEmpty
    · simp [splitWsAux, hc, h]
    · simp [splitWsAux, hc, h]
  | cons d cs ih =>
    intro acc
    by_cases hd : pyWs d
    · by_cases h : acc.isEmpty
      · simp only [List.cons_append, splitWsAux, hd, if_true, h, List.append_eq]
        exact ih []
      · simp only [List.cons_append, splitWsAux, hd, if_true, h, Bool.false_eq_true,
          if_false, List.append_eq]
        rw [ih []]
    · simp only [List.cons_append, splitWsAux, hd, Bool.false_eq_true, if_false,
        List.append_eq]
      exact ih (d :: acc)

theorem splitWsAux_allws (ws : List Char) : ∀ acc : List Char,
    (∀ c ∈ ws, pyWs c = true) →
    splitWsAux ws acc = if acc.isEmpty then [] else [acc.reverse] := by
  induction ws with
  | nil => intro acc _; rfl
  | cons c ws ih =>
    intro acc hws
    have hc : pyWs c = true := hws c (by simp)
    by_cases h : acc.isEmpty
    · simp only [splitWsAux, hc, if_true, h]
      rw [ih [] (fun d hd => hws d (by simp [hd]))]
      simp [h]
    · simp only [splitWsAux, hc, if_true, h, Bool.false_eq_true, if_false]
      rw [ih [] (fun d hd => hws d (by simp [hd]))]
      simp

theorem splitWsAux_nows (cs : List Char) : ∀ acc : List Char, cs ≠ [] →
    (∀ c ∈ cs, pyWs c = false) →
    splitWsAux cs acc = [acc.reverse ++ cs] := by
  induction cs with
  | nil => intro acc h _; exact absurd rfl h
  | cons c cs ih =>
    intro acc _ hcs
    have hc : pyWs c = false := hcs c (by simp)
    simp only [splitWsAux, hc, Bool.false_eq_true, if_false]
    by_cases hn : cs = []
    · subst hn
      simp [splitWsAux]
    · rw [ih (c :: acc) hn (fun d hd => hcs d (by simp [hd]))]
      simp

theorem splitWsAux_acc_ne (cs : List Char) : ∀ acc : List Char, acc ≠ [] →
    splitWsAux cs acc ≠ [] := by
  induction cs with
  | nil =>
    intro acc h
    simp [splitWsAux, List.isEmpty_iff, h]
  | cons c cs ih =>
    intro acc h
    by_cases hc : pyWs c
    · simp [splitWsAux, hc, List.isEmpty_iff, h]
    · simp only [splitWsAux, hc, Bool.false_eq_true, if_false]
      exact ih (c :: acc) (by simp)

theorem pyWordsL_ne_nil (cs : List Char) (h : ∃ c ∈ cs, pyWs c = false) :
    pyWordsL cs ≠ [] := by
  induction cs with
  | nil => simp at h
  | cons c cs ih =>
    by_cases hc : pyWs c
    · have : pyWordsL (c :: cs) = pyWordsL cs := by
        simp [pyWordsL, splitWsAux, hc]
      rw [this]
      refine ih ?_
      rcases h with ⟨d, hd, hdw⟩
      rcases List.mem_cons.mp hd with rfl | hd
      · simp [hc] at hdw
      · exact ⟨d, hd, hdw⟩
    · show splitWsAux (c :: cs) [] ≠ []
      simp only [splitWsAux, hc, Bool.false_eq_true, if_false]
      exact splitWsAux_acc_ne cs [c] (by simp)

theorem pyWordsL_allws (ws : List Char) (h : ∀ c ∈ ws, pyWs c = true) :
    pyWordsL ws = [] := by
  simpa using splitWsAux_allws ws [] h

theorem pyWordsL_append_sep (xs ys : List Char) (c : Char) (hc : pyWs c = true) :
    pyWordsL (xs ++ c :: ys) = pyWordsL xs ++ pyWordsL ys :=
  splitWsAux_sep c hc ys xs []

theorem pyWordsL_append_allws (xs ws : List Char) (h : ∀ c ∈ ws, pyWs c = true) :
    pyWordsL (xs ++ ws) = pyWordsL xs := by
  cases ws with
  | nil => simp
  | cons w ws2 =>
    rw [pyWordsL_append_sep xs ws2 w (h w (by simp))]
    rw [pyWordsL_allws ws2 (fun d hd => h d (by simp [hd]))]
    simp

theorem pyWordsL_dropWhile (cs : List Char) :
    pyWordsL (cs.dropWhile pyWs) = pyWordsL cs := by
  induction cs with
  | nil => rfl
  | cons c cs ih =>
    by_cases hc : pyWs c
    · rw [List.dropWhile_cons_of_pos hc, ih]
      show _ = splitWsAux (c :: cs) []
      simp [splitWsAux, hc, pyWordsL]
    · rw [List.dropWhile_cons_of_neg hc]

theorem pyWordsL_strip (cs : List Char) : pyWordsL (pyStripL cs) = pyWordsL cs := by
  have hsplit : (cs.dropWhile pyWs).reverse =
      (cs.dropWhile pyWs).reverse.takeWhile pyWs ++ (cs.dropWhile pyWs).reverse.dropWhile pyWs :=
    (List.takeWhile_append_dropWhile pyWs (cs.dropWhile pyWs).reverse).symm
  have hdecomp : cs.dropWhile pyWs =
      ((cs.dropWhile pyWs).reverse.dropWhile pyWs).reverse ++
        ((cs.dropWhile pyWs).reverse.takeWhile pyWs).reverse := by
    conv_lhs => rw [← List.reverse_reverse (cs.dropWhile pyWs), hsplit]
    rw [List.reverse_append]
  calc pyWordsL (pyStripL cs)
      = pyWordsL (((cs.dropWhile pyWs).reverse.dropWhile pyWs).reverse) := rfl
    _ = pyWordsL (((cs.dropWhile pyWs).reverse.dropWhile pyWs).reverse ++
          ((cs.dropWhile pyWs).reverse.takeWhile pyWs).reverse) := by
        rw [pyWordsL_append_allws]
        intro c hcm
        exact List.mem_takeWhile_imp (List.mem_reverse.mp hcm)
    _ = pyWordsL (cs.dropWhile pyWs) := by rw [← hdecomp]
    _ = pyWordsL cs := pyWordsL_dropWhile cs

theorem pyWords_strip (s : String) : pyWords (pyStrip s) = pyWords s := by
  show (pyWordsL (pyStripL s.data)).map String.mk = _
  rw [pyWordsL_strip]
  rfl

theorem pyWords_joinSp (l : List String) :
    pyWords (joinSp l) = (l.map pyWords).flatten := by
  induction l with
  | nil => rfl
  | cons s rest ih =>
    cases rest with
    | nil => simp [joinSp, pyWords]
    | cons t rest2 =>
      have hdata : (joinSp (s :: t :: rest2)).data =
          s.data ++ ' ' :: (joinSp (t :: rest2)).data := by
        show (s ++ " " ++ joinSp (t :: rest2)).data = _
        simp
      show (pyWordsL (joinSp (s :: t :: rest2)).data).map String.mk = _
      rw [hdata, pyWordsL_append_sep s.data (joinSp (t :: rest2)).data ' ' (by decide)]
      rw [List.map_append]
      have : (pyWordsL (joinSp (t :: rest2)).data).map String.mk = pyWords (joinSp (t :: rest2)) := rfl
      rw [this, ih]
      simp [pyWords]

theorem pyWords_single_clean (w : String) (h : CleanW w) : pyWords w = [w] := by
  show (pyWordsL w.data).map String.mk = [w]
  rw [pyWordsL, splitWsAux_nows w.data [] h.1 h.2]
  rfl

theorem pyWords_joinSp_clean (ws : List String) (h : ∀ w ∈ ws, CleanW w) :
    pyWords (joinSp ws) = ws := by
  rw [pyWords_joinSp]
  induction ws with
  | nil => rfl
  | cons w rest ih =>
    simp only [List.map_cons, List.flatten_cons]
    rw [pyWords_single_clean w (h w (by simp))]
    rw [ih (fun v hv => h v (by simp [hv]))]
    rfl

theorem tokens_length_word (w : String) (h : CleanW w) :
    tokens_length (w ++ " ") = 1 := by
  have hdata : (w ++ " ").data = w.data ++ ' ' :: [] := by simp
  have hw : pyWords (w ++ " ") = [w] := by
    show (pyWordsL (w ++ " ").data).map String.mk = [w]
    rw [hdata, pyWordsL_append_sep w.data [] ' ' (by decide)]
    rw [pyWordsL, splitWsAux_nows w.data [] h.1 h.2]
    rfl
  rw [tokens_length, hw]
  simp

theorem wc_le_tokens (s : String) : (pyWords s).length ≤ tokens_length s := by
  rw [tokens_length]
  omega

theorem wc_strip_join (cur : List String) :
    (pyWords (pyStrip (joinSp cur))).length =
      ((cur.map (fun s => (pyWords s).length)).sum) := by
  rw [pyWords_strip, pyWords_joinSp, List.length_flatten, List.map_map]
  rfl

theorem pyWords_strip_join_clean (ws : List String) (h : ∀ w ∈ ws, CleanW w) :
    pyWords (pyStrip (joinSp ws)) = ws := by
  rw [pyWords_strip, pyWords_joinSp_clean ws h]

theorem addOverlap_zero (l : List String) : addOverlap 0 l = l := by
  simp [addOverlap]


theorem sumWc_append (l1 l2 : List String) : sumWc (l1 ++ l2) = sumWc l1 + sumWc l2 := by
  simp [sumWc]

theorem wc_flush_eq (cur : List String) :
    (pyWords (pyStrip (joinSp cur))).length = sumWc cur := by
  rw [wc_strip_join]
  rfl

theorem chunkLoop_partition (M : Nat) : ∀ (ss : List String) (st : ChunkState),
    (∀ s ∈ ss, tokens_length s ≤ M) →
    ∃ gs : List (List String),
      gs.flatten = st.cur ++ ss ∧ (∀ g ∈ gs, g ≠ []) ∧
      (chunkLoop M ss st).chunks ++ flushOf (chunkLoop M ss st).cur =
        st.chunks ++ gs.map (fun g => pyStrip (joinSp g)) := by
  intro ss
  induction ss with
  | nil =>
    intro st _
    by_cases h : st.cur.isEmpty
    · refine ⟨[], ?_, by simp, ?_⟩
      · simp [List.isEmpty_iff.mp h]
      · simp [chunkLoop, flushOf, h]
    · refine ⟨[st.cur], by simp, ?_, ?_⟩
      · intro g hg
        rw [List.mem_singleton] at hg
        subst hg
        intro hn
        simp [hn] at h
      · simp [chunkLoop, flushOf, h]
  | cons sent rest ih =>
    intro st hfit
    have hsent : tokens_length sent ≤ M := hfit sent (by simp)
    have hrest : ∀ s ∈ rest, tokens_length s ≤ M := fun s hs => hfit s (by simp [hs])
    have hnotlong : ¬ tokens_length sent > M := by omega
    by_cases hbuf : st.cur_tokens + tokens_length sent ≤ M
    · have hstep : chunkLoop M (sent :: rest) st = chunkLoop M rest
          { st with
            cur := st.cur ++ [sent]
            cur_tokens := st.cur_tokens + tokens_length sent } := by
        simp [chunkLoop, hnotlong, hbuf]
      rcases ih { st with
          cur := st.cur ++ [sent]
          cur_tokens := st.cur_tokens + tokens_length sent } hrest with ⟨gs, h1, h2, h3⟩
      refine ⟨gs, ?_, h2, ?_⟩
      · rw [h1]; simp
      · rw [hstep]; exact h3
    · have hstep : chunkLoop M (sent :: rest) st = chunkLoop M rest
          { chunks := st.chunks ++ flushOf st.cur
            cur := [sent]
            cur_tokens := tokens_length sent } := by
        simp [chunkLoop, hnotlong, hbuf]
      rcases ih
          { chunks := st.chunks ++ flushOf st.cur
            cur := [sent]
            cur_tokens := tokens_length sent } hrest with ⟨gs, h1, h2, h3⟩
      by_cases hc : st.cur.isEmpty
      · refine ⟨gs, ?_, h2, ?_⟩
        · rw [h1]; simp [List.isEmpty_iff.mp hc]
        · rw [hstep, h3]
          simp [flushOf, hc]
      · refine ⟨st.cur :: gs, ?_, ?_, ?_⟩
        · rw [List.flatten_cons, h1]; simp
        · intro g hg
          rcases List.mem_cons.mp hg with rfl | hg
          · intro hn; simp [hn] at hc
          · exact h2 g hg
        · rw [hstep, h3]
          simp [flushOf, hc]

theorem procLong_inv (M : Nat) (hM : 1 ≤ M) :
    ∀ (ws cs piece : List String) (pt : Nat),
    (∀ w ∈ ws, CleanW w) → (∀ w ∈ piece, CleanW w) → pt = piece.length → pt ≤ M →
    ((∀ c ∈ cs, (pyWords c).length ≤ M) →
        ∀ c ∈ (ws.foldl (procWords M) (cs, piece, pt)).1, (pyWords c).length ≤ M) ∧
    ((∀ c ∈ cs, pyWords c ≠ []) →
        ∀ c ∈ (ws.foldl (procWords M) (cs, piece, pt)).1, pyWords c ≠ []) ∧
    (∀ w ∈ (ws.foldl (procWords M) (cs, piece, pt)).2.1, CleanW w) ∧
    (ws.foldl (procWords M) (cs, piece, pt)).2.2 =
      (ws.foldl (procWords M) (cs, piece, pt)).2.1.length ∧
    (ws.foldl (procWords M) (cs, piece, pt)).2.2 ≤ M ∧
    ((ws.foldl (procWords M) (cs, piece, pt)).2.1 = [] → (piece = [] ∧ ws = [])) := by
  intro ws
  induction ws with
  | nil =>
    intro cs piece pt _ hpc hlen hle
    exact ⟨fun h => h, fun h => h, hpc, hlen, hle, fun h => ⟨h, rfl⟩⟩
  | cons w ws ih =>
    intro cs piece pt hws hpc hlen hle
    have hw : CleanW w := hws w (by simp)
    have hws2 : ∀ v ∈ ws, CleanW v := fun v hv => hws v (by simp [hv])
    have hwt : tokens_length (w ++ " ") = 1 := tokens_length_word w hw
    rw [List.foldl_cons]
    by_cases hover : pt + tokens_length (w ++ " ") > M
    · have hpne : piece ≠ [] := by
        intro hn
        subst hn
        simp at hlen
        omega
      have hpw : pyWords (pyStrip (joinSp piece)) = piece :=
        pyWords_strip_join_clean piece hpc
      have hstep : procWords M (cs, piece, pt) w =
          (cs ++ [pyStrip (joinSp piece)], [w], tokens_length (w ++ " ")) := by
        simp [procWords, hover]
      rw [hstep]
      have hrec := ih (cs ++ [pyStrip (joinSp piece)]) [w] (tokens_length (w ++ " "))
        hws2 (by intro v hv; rw [List.mem_singleton] at hv; subst hv; exact hw)
        (by simp [hwt]) (by omega)
      refine ⟨?_, ?_, hrec.2.2.1, hrec.2.2.2.1, hrec.2.2.2.2.1, ?_⟩
      · intro hcs
        refine hrec.1 ?_
        intro c hcm
        rcases List.mem_append.mp hcm with hcm | hcm
        · exact hcs c hcm
        · rw [List.mem_singleton] at hcm
          subst hcm
          rw [hpw]
          omega
      · intro hcs
        refine hrec.2.1 ?_
        intro c hcm
        rcases List.mem_append.mp hcm with hcm | hcm
        · exact hcs c hcm
        · rw [List.mem_singleton] at hcm
          subst hcm
          rw [hpw]
          exact hpne
      · intro hnil
        exact absurd ((hrec.2.2.2.2.2 hnil).1) (by simp)
    · have hstep : procWords M (cs, piece, pt) w =
          (cs, piece ++ [w], pt + tokens_length (w ++ " ")) := by
        simp [procWords, hover]
      rw [hstep]
      have hrec := ih cs (piece ++ [w]) (pt + tokens_length (w ++ " "))
        hws2
        (by
          intro v hv
          rcases List.mem_append.mp hv with hv | hv
          · exact hpc v hv
          · rw [List.mem_singleton] at hv; subst hv; exact hw)
        (by simp [hwt, hlen]) (by omega)
      refine ⟨hrec.1, hrec.2.1, hrec.2.2.1, hrec.2.2.2.1, hrec.2.2.2.2.1, ?_⟩
      intro hnil
      exact absurd ((hrec.2.2.2.2.2 hnil).1) (by simp)


theorem procLongSentence_inv (M : Nat) (hM : 1 ≤ M) (ws cs : List String)
    (hws : ∀ w ∈ ws, CleanW w) :
    ((∀ c ∈ cs, (pyWords c).length ≤ M) →
        ∀ c ∈ (procLongSentence M cs ws).1, (pyWords c).length ≤ M) ∧
    ((∀ c ∈ cs, pyWords c ≠ []) → ∀ c ∈ (procLongSentence M cs ws).1, pyWords c ≠ []) ∧
    (∀ w ∈ (procLongSentence M cs ws).2.1, CleanW w) ∧
    (procLongSentence M cs ws).2.2 = (procLongSentence M cs ws).2.1.length ∧
    (procLongSentence M cs ws).2.2 ≤ M ∧
    ((procLongSentence M cs ws).2.1 = [] → ws = []) := by
  have h := procLong_inv M hM ws cs [] 0 hws (by simp) (by simp) (by omega)
  exact ⟨h.1, h.2.1, h.2.2.1, h.2.2.2.1, h.2.2.2.2.1, fun hn => (h.2.2.2.2.2 hn).2⟩

theorem mem_flushOf {cur : List String} {c : String} (hc : c ∈ flushOf cur) :
    c = pyStrip (joinSp cur) ∧ cur ≠ [] := by
  rw [flushOf] at hc
  by_cases h : cur.isEmpty
  · simp [h] at hc
  · simp only [h, Bool.false_eq_true, if_false, List.mem_singleton] at hc
    exact ⟨hc, fun hn => by simp [hn] at h⟩

theorem chunkLoop_long_step (M : Nat) (sent : String) (rest : List String)
    (st : ChunkState) (hlong : tokens_length sent > M) (cs piece : List String) (pt : Nat)
    (hr : procLongSentence M st.chunks (pyWords sent) = (cs, piece, pt)) :
    chunkLoop M (sent :: rest) st =
      if piece.isEmpty then
        chunkLoop M rest { chunks := cs, cur := st.cur, cur_tokens := st.cur_tokens }
      else if st.cur_tokens + pt ≤ M then
        chunkLoop M rest
          { chunks := cs
            cur := st.cur ++ [joinSp piece]
            cur_tokens := st.cur_tokens + pt }
      else
        chunkLoop M rest
          { chunks := cs ++ flushOf st.cur
            cur := [joinSp piece]
            cur_tokens := pt } := by
  rw [chunkLoop]
  simp only [hlong, if_true, hr]

theorem chunkLoop_bound (M : Nat) (hM : 1 ≤ M) : ∀ (ss : List String) (st : ChunkState),
    sumWc st.cur ≤ st.cur_tokens → st.cur_tokens ≤ M →
    (∀ c ∈ st.chunks, (pyWords c).length ≤ M) →
    ∀ c ∈ ((chunkLoop M ss st).chunks ++ flushOf (chunkLoop M ss st).cur),
      (pyWords c).length ≤ M := by
  intro ss
  induction ss with
  | nil =>
    intro st hsum hct hchunks c hc
    rw [chunkLoop] at hc
    rcases List.mem_append.mp hc with hc | hc
    · exact hchunks c hc
    · rw [(mem_flushOf hc).1, wc_flush_eq]
      omega
  | cons sent rest ih =>
    intro st hsum hct hchunks
    by_cases hlong : tokens_length sent > M
    · rcases hr : procLongSentence M st.chunks (pyWords sent) with ⟨cs, piece, pt⟩
      have hinv := procLongSentence_inv M hM (pyWords sent) st.chunks (pyWords_clean sent)
      rw [hr] at hinv
      have hcs : ∀ c ∈ cs, (pyWords c).length ≤ M := hinv.1 hchunks
      have hpiece : ∀ w ∈ piece, CleanW w := hinv.2.2.1
      have hpt : pt = piece.length := hinv.2.2.2.1
      have hptM : pt ≤ M := hinv.2.2.2.2.1
      have hjp : pyWords (joinSp piece) = piece := pyWords_joinSp_clean piece hpiece
      rw [chunkLoop_long_step M sent rest st hlong cs piece pt hr]
      by_cases hpe : piece.isEmpty
      · simp only [hpe, if_true]
        exact ih _ hsum hct hcs
      · simp only [hpe, Bool.false_eq_true, if_false]
        by_cases hfit : st.cur_tokens + pt ≤ M
        · simp only [hfit, if_true]
          refine ih _ ?_ hfit hcs
          show sumWc (st.cur ++ [joinSp piece]) ≤ st.cur_tokens + pt
          rw [sumWc_append]
          have : sumWc [joinSp piece] = pt := by
            simp [sumWc, hjp, hpt]
          omega
        · simp only [hfit, if_false]
          refine ih _ ?_ hptM ?_
          · show sumWc [joinSp piece] ≤ pt
            simp [sumWc, hjp, hpt]
          · intro c hcm
            rcases List.mem_append.mp hcm with hcm | hcm
            · exact hcs c hcm
            · rw [(mem_flushOf hcm).1, wc_flush_eq]
              omega
    · have hsent : tokens_length sent ≤ M := by omega
      by_cases hbuf : st.cur_tokens + tokens_length sent ≤ M
      · have hstep : chunkLoop M (sent :: rest) st = chunkLoop M rest
            { st with
              cur := st.cur ++ [sent]
              cur_tokens := st.cur_tokens + tokens_length sent } := by
          simp [chunkLoop, hlong, hbuf]
        rw [hstep]
        refine ih _ ?_ hbuf hchunks
        show sumWc (st.cur ++ [sent]) ≤ st.cur_tokens + tokens_length sent
        rw [sumWc_append]
        have : sumWc [sent] ≤ tokens_length sent := by
          simpa [sumWc] using wc_le_tokens sent
        omega
      · have hstep : chunkLoop M (sent :: rest) st = chunkLoop M rest
            { chunks := st.chunks ++ flushOf st.cur
              cur := [sent]
              cur_tokens := tokens_length sent } := by
          simp [chunkLoop, hlong, hbuf]
        rw [hstep]
        refine ih _ ?_ hsent ?_
        · show sumWc [sent] ≤ tokens_length sent
          simpa [sumWc] using wc_le_tokens sent
        · intro c hcm
          rcases List.mem_append.mp hcm with hcm | hcm
          · exact hchunks c hcm
          · rw [(mem_flushOf hcm).1, wc_flush_eq]
            omega

theorem flush_words_ne (cur : List String) (hne : cur ≠ [])
    (h : ∀ e ∈ cur, pyWords e ≠ []) : pyWords (pyStrip (joinSp cur)) ≠ [] := by
  rw [pyWords_strip, pyWords_joinSp]
  cases cur with
  | nil => exact absurd rfl hne
  | cons e rest =>
    simp only [List.map_cons, List.flatten_cons]
    intro hnil
    rcases List.append_eq_nil.mp hnil with ⟨h1, _⟩
    exact h e (by simp) h1

theorem chunkLoop_nonempty (M : Nat) (hM : 1 ≤ M) : ∀ (ss : List String) (st : ChunkState),
    (∀ s ∈ ss, pyWords s ≠ []) →
    (∀ e ∈ st.cur, pyWords e ≠ []) →
    (∀ c ∈ st.chunks, pyWords c ≠ []) →
    ∀ c ∈ ((chunkLoop M ss st).chunks ++ flushOf (chunkLoop M ss st).cur),
      pyWords c ≠ [] := by
  intro ss
  induction ss with
  | nil =>
    intro st _ hcur hchunks c hc
    rw [chunkLoop] at hc
    rcases List.mem_append.mp hc with hc | hc
    · exact hchunks c hc
    · rcases mem_flushOf hc with ⟨hceq, hcne⟩
      rw [hceq]
      exact flush_words_ne st.cur hcne hcur
  | cons sent rest ih =>
    intro st hss hcur hchunks
    have hsent : pyWords sent ≠ [] := hss sent (by simp)
    have hrest : ∀ s ∈ rest, pyWords s ≠ [] := fun s hs => hss s (by simp [hs])
    by_cases hlong : tokens_length sent > M
    · rcases hr : procLongSentence M st.chunks (pyWords sent) with ⟨cs, piece, pt⟩
      have hinv := procLongSentence_inv M hM (pyWords sent) st.chunks (pyWords_clean sent)
      rw [hr] at hinv
      have hcs : ∀ c ∈ cs, pyWords c ≠ [] := hinv.2.1 hchunks
      have hpiece : ∀ w ∈ piece, CleanW w := hinv.2.2.1
      have hjp : pyWords (joinSp piece) = piece := pyWords_joinSp_clean piece hpiece
      rw [chunkLoop_long_step M sent rest st hlong cs piece pt hr]
      by_cases hpe : piece.isEmpty
      · simp only [hpe, if_true]
        exact ih _ hrest hcur hcs
      · have hpne : piece ≠ [] := fun hn => by simp [hn] at hpe
        simp only [hpe, Bool.false_eq_true, if_false]
        by_cases hfit : st.cur_tokens + pt ≤ M
        · simp only [hfit, if_true]
          refine ih _ hrest ?_ hcs
          intro e he
          rcases List.mem_append.mp he with he | he
          · exact hcur e he
          · rw [List.mem_singleton] at he
            subst he
            rw [hjp]
            exact hpne
        · simp only [hfit, if_false]
          refine ih _ hrest ?_ ?_
          · intro e he
            rw [List.mem_singleton] at he
            subst he
            rw [hjp]
            exact hpne
          · intro c hcm
            rcases List.mem_append.mp hcm with hcm | hcm
            · exact hcs c hcm
            · rcases mem_flushOf hcm with ⟨hceq, hcne⟩
              rw [hceq]
              exact flush_words_ne st.cur hcne hcur
    · by_cases hbuf : st.cur_tokens + tokens_length sent ≤ M
      · have hstep : chunkLoop M (sent :: rest) st = chunkLoop M rest
            { st with
              cur := st.cur ++ [sent]
              cur_tokens := st.cur_tokens + tokens_length sent } := by
          simp [chunkLoop, hlong, hbuf]
        rw [hstep]
        refine ih _ hrest ?_ hchunks
        intro e he
        rcases List.mem_append.mp he with he | he
        · exact hcur e he
        · rw [List.mem_singleton] at he
          subst he
          exact hsent
      · have hstep : chunkLoop M (sent :: rest) st = chunkLoop M rest
            { chunks := st.chunks ++ flushOf st.cur
              cur := [sent]
              cur_tokens := tokens_length sent } := by
          simp [chunkLoop, hlong, hbuf]
        rw [hstep]
        refine ih _ hrest ?_ ?_
        · intro e he
          rw [List.mem_singleton] at he
          subst he
          exact hsent
        · intro c hcm
          rcases List.mem_append.mp hcm with hcm | hcm
          · exact hchunks c hcm
          · rcases mem_flushOf hcm with ⟨hceq, hcne⟩
            rw [hceq]
            exact flush_words_ne st.cur hcne hcur

theorem chunk_sentences_ov (ss : List String) (M ov : Nat) :
    chunk_sentences_to_chunks ss M ov = addOverlap ov (chunk_sentences_to_chunks ss M 0) := by
  rw [chunk_sentences_to_chunks, chunk_sentences_to_chunks]
  by_cases h : ss.isEmpty
  · simp [h, addOverlap]
  · simp only [h, Bool.false_eq_true, if_false, addOverlap_zero]

theorem addOverlapGo_length (k : Nat) : ∀ (cs : List String) (prev : String),
    (addOverlapGo k prev cs).length = cs.length := by
  intro cs
  induction cs with
  | nil => intro prev; rfl
  | cons c rest ih => intro prev; simp [addOverlapGo, ih]

theorem suffixK_suffix (k : Nat) (l : List String) : suffixK k l <:+ l :=
  List.drop_suffix _ _

theorem suffixK_length (k : Nat) (l : List String) :
    (suffixK k l).length = min k l.length := by
  rw [suffixK, List.length_drop]
  omega

theorem suffixK_ne (k : Nat) (l : List String) (hl : l ≠ []) (hk : 1 ≤ k) :
    suffixK k l ≠ [] := by
  have h1 : 0 < l.length := List.length_pos.mpr hl
  have h2 : 0 < (suffixK k l).length := by
    rw [suffixK_length]
    omega
  exact List.ne_nil_of_length_pos h2

theorem suffixK_clean (k : Nat) (s : String) :
    ∀ w ∈ suffixK k (pyWords s), CleanW w := fun w hw =>
  pyWords_clean s w (List.drop_subset _ _ hw)

theorem addOverlapGo_getD (k : Nat) : ∀ (cs : List String) (prev : String) (i : Nat),
    i < cs.length →
    pyWords ((addOverlapGo k prev cs).getD i "") =
      suffixK k (pyWords (if i = 0 then prev
          else (addOverlapGo k prev cs).getD (i - 1) "")) ++
        pyWords (cs.getD i "") := by
  intro cs
  induction cs with
  | nil => intro prev i h; simp at h
  | cons c rest ih =>
    intro prev i h
    match i with
    | 0 =>
      show pyWords ((joinSp (suffixK k (pyWords prev) ++ pyWords c) ::
          addOverlapGo k (joinSp (suffixK k (pyWords prev) ++ pyWords c)) rest).getD 0 "") = _
      rw [List.getD_cons_zero]
      rw [pyWords_joinSp_clean]
      · simp
      · intro w hw
        rcases List.mem_append.mp hw with hw | hw
        · exact suffixK_clean k prev w hw
        · exact pyWords_clean c w hw
    | j + 1 =>
      have hj : j < rest.length := by simpa using h
      show pyWords ((joinSp (suffixK k (pyWords prev) ++ pyWords c) ::
          addOverlapGo k (joinSp (suffixK k (pyWords prev) ++ pyWords c)) rest).getD (j + 1) "") = _
      rw [List.getD_cons_succ]
      rw [ih (joinSp (suffixK k (pyWords prev) ++ pyWords c)) j hj]
      match j with
      | 0 => simp [addOverlapGo]
      | m + 1 => simp [addOverlapGo]

theorem chunks_words_ne (ss : List String) (M : Nat) (hM : 1 ≤ M)
    (hss : ∀ s ∈ ss, pyWords s ≠ []) :
    ∀ c ∈ chunk_sentences_to_chunks ss M 0, pyWords c ≠ [] := by
  intro c hc
  rw [chunk_sentences_to_chunks] at hc
  by_cases h : ss.isEmpty
  · simp [h] at hc
  · simp only [h, Bool.false_eq_true, if_false, addOverlap_zero] at hc
    exact chunkLoop_nonempty M hM ss ⟨[], [], 0⟩ hss (by simp) (by simp) c hc

theorem cons_getD_eq (c0 : String) (go : List String) (i : Nat) :
    (c0 :: go).getD i "" = if i = 0 then c0 else go.getD (i - 1) "" := by
  cases i <;> simp

/-! ## Claim C1 -/

/-- C1 counterexample: with `maxTokens = 2` and no overlap, the sentences
`["a b", "x y z"]` produce chunks `["x y", "a b", "z"]` — the first
sentence `"a b"` is emitted *after* the piece `"x y"` of the later
over-long sentence, because intermediate word-split pieces are appended to
the chunk list without flushing the buffer.  The concatenated word sequence
of the chunks therefore differs from that of the sentences, so no partition
of the sentences reconstructs them in original order. -/
theorem c1_counterexample :
    chunk_sentences_to_chunks ["a b", "x y z"] 2 0 = ["x y", "a b", "z"] ∧
    ((chunk_sentences_to_chunks ["a b", "x y z"] 2 0).map pyWords).flatten ≠
      ((["a b", "x y z"] : List String).map pyWords).flatten := by
  constructor
  · decide
  · decide

/-- C1 (amended): when no sentence's token count exceeds `maxTokens` (so the
word-splitting branch is never taken) and `overlapTokens = 0`, the chunk
sequence is exactly a partition of the sentence list into consecutive
non-empty groups, each chunk being the space-join of its group: no sentence
is dropped, duplicated, or reordered.  (The unrestricted claim is false:
see the counterexample — an over-long sentence's intermediate pieces are
emitted before the pending buffer.) -/
theorem c1_chunk_reconstruction_amended (ss : List String) (M : Nat)
    (hfit : ∀ s ∈ ss, tokens_length s ≤ M) :
    ∃ gs : List (List String), gs.flatten = ss ∧ (∀ g ∈ gs, g ≠ []) ∧
      chunk_sentences_to_chunks ss M 0 = gs.map (fun g => pyStrip (joinSp g)) := by
  rcases chunkLoop_partition M ss ⟨[], [], 0⟩ hfit with ⟨gs, h1, h2, h3⟩
  refine ⟨gs, by simpa using h1, h2, ?_⟩
  rw [chunk_sentences_to_chunks]
  by_cases h : ss.isEmpty
  · have hss : ss = [] := List.isEmpty_iff.mp h
    subst hss
    have hgs : gs = [] := by
      cases gs with
      | nil => rfl
      | cons g rest =>
        simp only [List.flatten_cons, List.nil_append] at h1
        rcases List.append_eq_nil.mp h1 with ⟨hg, _⟩
        exact absurd hg (h2 g (by simp))
    subst hgs
    simp
  · simp only [h, Bool.false_eq_true, if_false, addOverlap_zero]
    simpa using h3

theorem c1_amended_witness :
    (∀ s ∈ (["a b.", "c d."] : List String), tokens_length s ≤ 800) ∧
    ∃ gs : List (List String), gs.flatten = ["a b.", "c d."] ∧
      (∀ g ∈ gs, g ≠ []) ∧
      chunk_sentences_to_chunks ["a b.", "c d."] 800 0 =
        gs.map (fun g => pyStrip (joinSp g)) :=
  ⟨by decide, c1_chunk_reconstruction_amended ["a b.", "c d."] 800 (by decide)⟩

/-! ## Claim C2 -/

/-- C2 counterexample: with `maxTokens = 12` the two sentences each count 6
tokens, both fit the buffer (6 + 6 = 12 ≤ 12), yet the single resulting
chunk (10 words) counts 13 tokens — exceeding `maxTokens` although no
single sentence exceeded it, because `floor(1.3·(a+b))` can exceed
`floor(1.3·a) + floor(1.3·b)`. -/
theorem c2_counterexample :
    chunk_sentences_to_chunks ["a b c d e", "f g h i j"] 12 0 =
      ["a b c d e f g h i j"] ∧
    (∀ s ∈ (["a b c d e", "f g h i j"] : List String), tokens_length s ≤ 12) ∧
    tokens_length "a b c d e f g h i j" = 13 ∧
    ¬ tokens_length "a b c d e f g h i j" ≤ 12 := by
  refine ⟨by decide, by decide, by decide, by decide⟩

/-- C2 (amended): for `maxTokens = M ≥ 1` and `overlapTokens = 0`, every
chunk the chunker produces consists of at most `M` words, hence its
fallback token count is at most `max 1 (13·M/10)` (with no exception
needed: word-split pieces of over-long sentences obey the same word bound).
The stated bound `≤ M` on token counts is false — see the counterexample —
because the loop compares a *sum of per-sentence counts* against `M`. -/
theorem c2_chunk_token_bound_amended (ss : List String) (M : Nat) (hM : 1 ≤ M) :
    ∀ c ∈ chunk_sentences_to_chunks ss M 0,
      (pyWords c).length ≤ M ∧ tokens_length c ≤ max 1 (13 * M / 10) := by
  intro c hc
  rw [chunk_sentences_to_chunks] at hc
  by_cases h : ss.isEmpty
  · simp [h] at hc
  · simp only [h, Bool.false_eq_true, if_false, addOverlap_zero] at hc
    have hwc : (pyWords c).length ≤ M :=
      chunkLoop_bound M hM ss ⟨[], [], 0⟩ (by simp [sumWc]) (by simp) (by simp) c hc
    refine ⟨hwc, ?_⟩
    rw [tokens_length]
    have hdiv : 13 * (pyWords c).length / 10 ≤ 13 * M / 10 :=
      Nat.div_le_div_right (Nat.mul_le_mul_left 13 hwc)
    omega

theorem c2_amended_witness :
    (1 ≤ 2) ∧ ("a b" ∈ chunk_sentences_to_chunks ["a b"] 2 0) ∧
    (pyWords "a b").length ≤ 2 ∧ tokens_length "a b" ≤ max 1 (13 * 2 / 10) := by
  refine ⟨by decide, by decide, ?_, ?_⟩
  · exact (c2_chunk_token_bound_amended ["a b"] 2 (by decide) "a b" (by decide)).1
  · exact (c2_chunk_token_bound_amended ["a b"] 2 (by decide) "a b" (by decide)).2

/-! ## Claim C3 -/

/-- C3 counterexample: sentences `["a b c", "d", "e f g"]` with
`maxTokens = 3`, `overlapTokens = 3` give pre-overlap chunks
`["a b c", "d", "e f g"]` and final chunks `["a b c", "b c d", "c d e f g"]`.
Chunk 2 begins with `"c d"`, which is not a (non-empty) word suffix of the
pre-overlap chunk 1 `"d"` at all — the overlap window is taken from the
*already-overlapped* `"b c d"`, dipping into inherited overlap words
because the pre-overlap chunk has fewer than `floor(3/1.3) = 2` words. -/
theorem c3_counterexample :
    chunk_sentences_to_chunks ["a b c", "d", "e f g"] 3 0 =
      ["a b c", "d", "e f g"] ∧
    chunk_sentences_to_chunks ["a b c", "d", "e f g"] 3 3 =
      ["a b c", "b c d", "c d e f g"] ∧
    ((pyWords "d").tails.filter (fun t => !t.isEmpty)).all
      (fun t => !(t.isPrefixOf (pyWords "c d e f g"))) = true := by
  refine ⟨by decide, by decide, by decide⟩

/-- C3 (amended): for `overlapTokens > 0` and at least two pre-overlap
chunks, with every sentence non-blank and `maxTokens ≥ 1`: the overlapped
sequence has the same length, chunk 0 is unmodified, and every later chunk
`i+1` consists of a non-empty word suffix of the *already-overlapped* chunk
`i` — of exactly `min (max 1 (floor(overlapTokens·10/13)))
(wordCount(chunk i))` words — followed by the words of pre-overlap chunk
`i+1`.  (The frozen claim's "suffix of chunk i-1's pre-overlap content, or
all of chunk i-1's words if fewer" is false — see the counterexample; the
window is cut from the already-overlapped predecessor.) -/
theorem c3_chunk_overlap_amended (ss : List String) (M ov : Nat) (hM : 1 ≤ M)
    (hss : ∀ s ∈ ss, pyWords s ≠ []) (hov : 0 < ov)
    (h2 : 2 ≤ (chunk_sentences_to_chunks ss M 0).length) :
    (chunk_sentences_to_chunks ss M ov).length =
      (chunk_sentences_to_chunks ss M 0).length ∧
    (chunk_sentences_to_chunks ss M ov).getD 0 "" =
      (chunk_sentences_to_chunks ss M 0).getD 0 "" ∧
    ∀ i, i + 1 < (chunk_sentences_to_chunks ss M 0).length →
      pyWords ((chunk_sentences_to_chunks ss M ov).getD (i + 1) "") =
        suffixK (max 1 (ov * 10 / 13))
            (pyWords ((chunk_sentences_to_chunks ss M ov).getD i "")) ++
          pyWords ((chunk_sentences_to_chunks ss M 0).getD (i + 1) "") ∧
      suffixK (max 1 (ov * 10 / 13))
          (pyWords ((chunk_sentences_to_chunks ss M ov).getD i "")) ≠ [] ∧
      (suffixK (max 1 (ov * 10 / 13))
          (pyWords ((chunk_sentences_to_chunks ss M ov).getD i ""))).length =
        min (max 1 (ov * 10 / 13))
          (pyWords ((chunk_sentences_to_chunks ss M ov).getD i "")).length ∧
      suffixK (max 1 (ov * 10 / 13))
          (pyWords ((chunk_sentences_to_chunks ss M ov).getD i "")) <:+
        pyWords ((chunk_sentences_to_chunks ss M ov).getD i "") := by
  have hpre : ∀ c ∈ chunk_sentences_to_chunks ss M 0, pyWords c ≠ [] :=
    chunks_words_ne ss M hM hss
  have hout : chunk_sentences_to_chunks ss M ov =
      addOverlap ov (chunk_sentences_to_chunks ss M 0) := chunk_sentences_ov ss M ov
  rcases hshape : chunk_sentences_to_chunks ss M 0 with _ | ⟨c0, rest⟩
  · rw [hshape] at h2
    simp at h2
  · rw [hshape] at h2 hpre hout
    have hlen1 : 1 < (c0 :: rest).length := by
      simp only [List.length_cons] at h2 ⊢
      omega
    have hout2 : chunk_sentences_to_chunks ss M ov =
        c0 :: addOverlapGo (max 1 (ov * 10 / 13)) c0 rest := by
      rw [hout, addOverlap, if_pos ⟨hov, hlen1⟩]
    rw [hout2]
    refine ⟨by simp [addOverlapGo_length], by simp, ?_⟩
    intro i hi
    have hi2 : i < rest.length := by
      simp only [List.length_cons] at hi
      omega
    have heq := addOverlapGo_getD (max 1 (ov * 10 / 13)) rest c0 i hi2
    rw [show (if i = 0 then c0
        else (addOverlapGo (max 1 (ov * 10 / 13)) c0 rest).getD (i - 1) "") =
        (c0 :: addOverlapGo (max 1 (ov * 10 / 13)) c0 rest).getD i "" from
      (cons_getD_eq c0 _ i).symm] at heq
    have houti_ne :
        pyWords ((c0 :: addOverlapGo (max 1 (ov * 10 / 13)) c0 rest).getD i "") ≠ [] := by
      match i, hi2 with
      | 0, _ =>
        rw [List.getD_cons_zero]
        exact hpre c0 (by simp)
      | j + 1, hj2 =>
        have hj : j < rest.length := by omega
        have heqj := addOverlapGo_getD (max 1 (ov * 10 / 13)) rest c0 j hj
        rw [List.getD_cons_succ, heqj]
        intro hnil
        rcases List.append_eq_nil.mp hnil with ⟨_, hr⟩
        refine hpre (rest.getD j "") ?_ hr
        refine List.mem_cons_of_mem c0 ?_
        rw [List.getD_eq_getElem rest "" hj]
        exact List.getElem_mem hj
    rw [List.getD_cons_succ, List.getD_cons_succ]
    exact ⟨heq, suffixK_ne _ _ houti_ne (le_max_left 1 _), suffixK_length _ _,
      suffixK_suffix _ _⟩

theorem c3_amended_witness :
    (1 ≤ 3) ∧ (∀ s ∈ (["a b c", "d", "e f g"] : List String), pyWords s ≠ []) ∧
    (0 < 3) ∧ 2 ≤ (chunk_sentences_to_chunks ["a b c", "d", "e f g"] 3 0).length ∧
    (chunk_sentences_to_chunks ["a b c", "d", "e f g"] 3 3).length =
      (chunk_sentences_to_chunks ["a b c", "d", "e f g"] 3 0).length ∧
    pyWords ((chunk_sentences_to_chunks ["a b c", "d", "e f g"] 3 3).getD 1 "") =
      suffixK (max 1 (3 * 10 / 13))
          (pyWords ((chunk_sentences_to_chunks ["a b c", "d", "e f g"] 3 3).getD 0 "")) ++
        pyWords ((chunk_sentences_to_chunks ["a b c", "d", "e f g"] 3 0).getD 1 "") := by
  have h := c3_chunk_overlap_amended ["a b c", "d", "e f g"] 3 3 (by decide)
    (by decide) (by decide) (by decide)
  exact ⟨by decide, by decide, by decide, by decide, h.1, (h.2.2 0 (by decide)).1⟩

/-! ## Lemmas: inner products and the search model -/

theorem dot_cons (a b : ℚ) (u v : Vec) : dot (a :: u) (b :: v) = a * b + dot u v := by
  simp [dot]

theorem dot_nil_right (u : Vec) : dot u [] = 0 := by
  cases u <;> rfl

theorem sqNorm_nonneg (v : Vec) : 0 ≤ sqNorm v := by
  induction v with
  | nil => exact le_refl 0
  | cons a v ih =>
    rw [sqNorm, dot_cons]
    exact add_nonneg (mul_self_nonneg a) ih

theorem dot_sq_le (u : Vec) : ∀ v : Vec, dot u v ^ 2 ≤ sqNorm u * sqNorm v := by
  induction u with
  | nil =>
    intro v
    show dot [] v ^ 2 ≤ sqNorm [] * sqNorm v
    simp [dot, sqNorm]
  | cons a u ih =>
    intro v
    cases v with
    | nil =>
      rw [dot_nil_right]
      simp [sqNorm, dot_nil_right]
    | cons b v =>
      have hsu : sqNorm (a :: u) = a * a + sqNorm u := by rw [sqNorm, dot_cons]; rfl
      have hsv : sqNorm (b :: v) = b * b + sqNorm v := by rw [sqNorm, dot_cons]; rfl
      rw [dot_cons, hsu, hsv]
      have h1 := ih v
      have h2 := sqNorm_nonneg u
      have h3 := sqNorm_nonneg v
      have hX : 0 ≤ a * a * sqNorm v + b * b * sqNorm u :=
        add_nonneg (mul_nonneg (mul_self_nonneg a) h3) (mul_nonneg (mul_self_nonneg b) h2)
      have h4 : a ^ 2 * b ^ 2 * dot u v ^ 2 ≤ a ^ 2 * b ^ 2 * (sqNorm u * sqNorm v) := by
        apply mul_le_mul_of_nonneg_left h1
        positivity
      have hkey : 2 * (a * b * dot u v) ≤ a * a * sqNorm v + b * b * sqNorm u := by
        nlinarith [hX, h4, sq_nonneg (a * a * sqNorm v - b * b * sqNorm u)]
      nlinarith [hkey, h1]

theorem score_bounds (u v : Vec) (hu : sqNorm u = 1) (hv : sqNorm v = 1) :
    -1 ≤ dot u v ∧ dot u v ≤ 1 := by
  have h := dot_sq_le u v
  rw [hu, hv] at h
  constructor <;> nlinarith [h]


/-! ## Claim C4 -/

/-- C4: with the encoder succeeding (external collaborators excluded by the
spec), `build` errors with `EmptyPassageSetError` exactly on the empty
passage sequence and succeeds otherwise; `query` and `save` raise
`IndexNotBuiltError` exactly when the index field is unset, which holds for
a fresh index and is cleared by any successful `build` or `load`; `load`
raises `NotFoundError` exactly when either path is missing and otherwise
replaces the whole in-memory state with the two stored artifacts. -/
theorem c4_vector_index_errors (ctx : EncCtx) (st st2 : EmbState) (fs : FS)
    (ps : List String) (vs : List Vec) (ip pp q : String) (k : Nat)
    (henc : ctx.encode ps = .ok vs) :
    (((EmbeddingsIndex.build ctx st ps).1 = .error .emptyPassages) ↔ ps = []) ∧
    (((EmbeddingsIndex.build ctx st ps).1 = .ok ()) ↔ ps ≠ []) ∧
    EmbState.initial.index = none ∧
    ((EmbeddingsIndex.query ctx st2 q k = .error .notBuilt) ↔ st2.index = none) ∧
    (((EmbeddingsIndex.save st2 fs ip pp).1 = .error .notBuilt) ↔ st2.index = none) ∧
    (ps ≠ [] → (EmbeddingsIndex.build ctx st ps).2.index ≠ none) ∧
    (((EmbeddingsIndex.load st2 fs ip pp).1 = .error .notFound) ↔
      (fs.indexFiles ip = none ∨ fs.passageFiles pp = none)) ∧
    (∀ vecs pl, fs.indexFiles ip = some vecs → fs.passageFiles pp = some pl →
      EmbeddingsIndex.load st2 fs ip pp = (.ok (), { index := some vecs, passages := pl })) := by
  have hb : ∀ _ : ps ≠ [], EmbeddingsIndex.build ctx st ps =
      (.ok (), { index := some (vs.map ctx.normalize), passages := ps }) := by
    intro hps
    rw [EmbeddingsIndex.build, if_neg (by simp [List.isEmpty_iff, hps]), henc]
  refine ⟨?_, ?_, rfl, ?_, ?_, ?_, ?_, ?_⟩
  · by_cases hps : ps = []
    · subst hps
      simp [EmbeddingsIndex.build]
    · rw [hb hps]
      simp [hps]
  · by_cases hps : ps = []
    · subst hps
      simp [EmbeddingsIndex.build]
    · rw [hb hps]
      simp [hps]
  · cases hidx : st2.index with
    | none => simp [EmbeddingsIndex.query, hidx]
    | some vecs =>
      cases he : ctx.encode [q] with
      | error e => simp [EmbeddingsIndex.query, hidx, he]
      | ok qvs => simp [EmbeddingsIndex.query, hidx, he]
  · cases hidx : st2.index with
    | none => simp [EmbeddingsIndex.save, hidx]
    | some vecs => simp [EmbeddingsIndex.save, hidx]
  · intro hps
    rw [hb hps]
    simp
  · cases hip : fs.indexFiles ip with
    | none => simp [EmbeddingsIndex.load, hip]
    | some vecs =>
      cases hpp : fs.passageFiles pp with
      | none => simp [EmbeddingsIndex.load, hip, hpp]
      | some pl => simp [EmbeddingsIndex.load, hip, hpp]
  · intro vecs pl hip hpp
    simp [EmbeddingsIndex.load, hip, hpp]

theorem c4_witness :
    ((EmbeddingsIndex.build encConst EmbState.initial ["p"]).1 = .ok ()) ∧
    (EmbeddingsIndex.query encConst EmbState.initial "q" 4 = .error .notBuilt) ∧
    ((EmbeddingsIndex.save EmbState.initial fsEmpty "i" "j").1 = .error .notBuilt) ∧
    ((EmbeddingsIndex.load EmbState.initial fsEmpty "i" "j").1 = .error .notFound) := by
  have h := c4_vector_index_errors encConst EmbState.initial EmbState.initial fsEmpty
    ["p"] [[1]] "i" "j" "q" 4 rfl
  exact ⟨h.2.1.mpr (by simp), h.2.2.2.1.mpr rfl, h.2.2.2.2.1.mpr rfl,
    h.2.2.2.2.2.2.1.mpr (Or.inl rfl)⟩

/-! ## Claim C6 -/

/-- C6: `save` on a built index succeeds and writes both artifacts;
`load`ing them into a fresh index reproduces exactly the original state
(same passage order), so any fixed query returns identical results (the
model is exact over ℚ, which subsumes "within floating-point tolerance"). -/
theorem c6_save_load_roundtrip (ctx : EncCtx) (st : EmbState) (fs : FS)
    (vecs : List Vec) (ip pp q : String) (k : Nat) (hidx : st.index = some vecs) :
    (EmbeddingsIndex.save st fs ip pp).1 = .ok () ∧
    EmbeddingsIndex.load EmbState.initial (EmbeddingsIndex.save st fs ip pp).2 ip pp =
      (.ok (), st) ∧
    EmbeddingsIndex.query ctx
        (EmbeddingsIndex.load EmbState.initial
          (EmbeddingsIndex.save st fs ip pp).2 ip pp).2 q k =
      EmbeddingsIndex.query ctx st q k := by
  have hsave : EmbeddingsIndex.save st fs ip pp =
      (.ok (), (fs.writeIndex ip vecs).writePassages pp st.passages) := by
    simp [EmbeddingsIndex.save, hidx]
  have h1 : ((fs.writeIndex ip vecs).writePassages pp st.passages).indexFiles ip =
      some vecs := by
    simp [FS.writeIndex, FS.writePassages]
  have h2 : ((fs.writeIndex ip vecs).writePassages pp st.passages).passageFiles pp =
      some st.passages := by
    simp [FS.writeIndex, FS.writePassages]
  have hload : EmbeddingsIndex.load EmbState.initial
      ((fs.writeIndex ip vecs).writePassages pp st.passages) ip pp = (.ok (), st) := by
    simp only [EmbeddingsIndex.load, h1, h2]
    rw [← hidx]
  rw [hsave]
  exact ⟨rfl, hload, by rw [hload]⟩

theorem c6_witness :
    (stTwo.index = some [[(1 : ℚ)], [(-1 : ℚ)]]) ∧
    (EmbeddingsIndex.save stTwo fsEmpty "i" "j").1 = .ok () ∧
    EmbeddingsIndex.load EmbState.initial
        (EmbeddingsIndex.save stTwo fsEmpty "i" "j").2 "i" "j" = (.ok (), stTwo) ∧
    EmbeddingsIndex.query encConst
        (EmbeddingsIndex.load EmbState.initial
          (EmbeddingsIndex.save stTwo fsEmpty "i" "j").2 "i" "j").2 "q" 4 =
      EmbeddingsIndex.query encConst stTwo "q" 4 := by
  have h := c6_save_load_roundtrip encConst stTwo fsEmpty [[(1 : ℚ)], [(-1 : ℚ)]]
    "i" "j" "q" 4 rfl
  exact ⟨rfl, h.1, h.2.1, h.2.2⟩

/-! ## Claim C7 -/

/-- C7 counterexample: with a previously built two-passage index, a `build`
whose encoder call fails propagates the failure but does *not* leave the
state unchanged: `self.passages` was already replaced (the assignment
precedes the encoder call in the source), while the search structure keeps
its old three vectors — the state is mutated and now inconsistent. -/
theorem c7_counterexample :
    (EmbeddingsIndex.build encFail stTwo ["new"]).1 = .error .external ∧
    (EmbeddingsIndex.build encFail stTwo ["new"]).2 ≠ stTwo ∧
    (EmbeddingsIndex.build encFail stTwo ["new"]).2.passages = ["new"] ∧
    (EmbeddingsIndex.build encFail stTwo ["new"]).2.index = stTwo.index := by
  refine ⟨rfl, by decide, rfl, rfl⟩

/-- C7 (amended): when the encoder raises during `build` on a non-empty
input, the error propagates and the search structure is unchanged, but the
passages sequence has already been replaced by the new input — the
operation is *not* all-or-nothing on in-memory state (persisted files are
untouched, as `build` never writes them). -/
theorem c7_build_failure_state (ctx : EncCtx) (st : EmbState) (ps : List String)
    (hps : ps ≠ []) (hfail : ctx.encode ps = .error ()) :
    EmbeddingsIndex.build ctx st ps =
      (.error .external, { index := st.index, passages := ps }) := by
  rw [EmbeddingsIndex.build, if_neg (by simp [List.isEmpty_iff, hps]), hfail]

theorem c7_amended_witness :
    ((["new"] : List String) ≠ []) ∧ (encFail.encode ["new"] = .error ()) ∧
    EmbeddingsIndex.build encFail stTwo ["new"] =
      (.error .external, { index := stTwo.index, passages := ["new"] }) :=
  ⟨by simp, rfl, c7_build_failure_state encFail stTwo ["new"] (by simp) rfl⟩

theorem faiss_filter_spec (vecs : List Vec) (qn : Vec) (k N : Nat)
    (hlen : vecs.length = N) (hunit : ∀ v ∈ vecs, sqNorm v = 1) (hq : sqNorm qn = 1) :
    ((faissSearch vecs qn k).filter
        (fun p => decide (0 ≤ p.1) && decide (p.1 < (N : Int)))).length = min k N ∧
    (∀ p ∈ (faissSearch vecs qn k).filter
        (fun p => decide (0 ≤ p.1) && decide (p.1 < (N : Int))),
      p.1.toNat < N ∧ -1 ≤ p.2 ∧ p.2 ≤ 1) ∧
    ((faissSearch vecs qn k).filter
        (fun p => decide (0 ≤ p.1) && decide (p.1 < (N : Int)))).Pairwise
      (fun a b => b.2 ≤ a.2) := by
  classical
  set valid : Int × ℚ → Bool :=
    fun p => decide (0 ≤ p.1) && decide (p.1 < (N : Int)) with hvalid
  set scored : List (Int × ℚ) :=
    (List.range vecs.length).map (fun i : Nat => ((i : Int), dot qn (vecs.getD i [])))
    with hscored
  set sorted := List.insertionSort (fun a b : Int × ℚ => b.2 ≤ a.2) scored with hsorted
  have hsortmem : ∀ p ∈ sorted,
      ∃ i : Nat, i < vecs.length ∧ p = ((i : Int), dot qn (vecs.getD i [])) := by
    intro p hp
    have hp2 : p ∈ scored :=
      (List.perm_insertionSort (fun a b : Int × ℚ => b.2 ≤ a.2) scored).subset hp
    rw [hscored] at hp2
    rcases List.mem_map.mp hp2 with ⟨i, hi, rfl⟩
    exact ⟨i, List.mem_range.mp hi, rfl⟩
  have hsortlen : sorted.length = vecs.length := by
    rw [hsorted, (List.perm_insertionSort _ scored).length_eq, hscored]
    simp
  have hsorted_pw : sorted.Pairwise (fun a b : Int × ℚ => b.2 ≤ a.2) := by
    haveI : IsTotal (Int × ℚ) (fun a b : Int × ℚ => b.2 ≤ a.2) :=
      ⟨fun a b => le_total b.2 a.2⟩
    haveI : IsTrans (Int × ℚ) (fun a b : Int × ℚ => b.2 ≤ a.2) :=
      ⟨fun a b c h1 h2 => le_trans h2 h1⟩
    exact List.sorted_insertionSort _ scored
  have htake_valid : ∀ p ∈ sorted.take k, valid p = true := by
    intro p hp
    rcases hsortmem p (List.mem_of_mem_take hp) with ⟨i, hi, rfl⟩
    rw [hvalid]
    simp only [Bool.and_eq_true, decide_eq_true_eq]
    constructor
    · exact Int.ofNat_nonneg i
    · rw [← hlen]
      exact_mod_cast hi
  have hpad : ∀ p ∈ List.replicate (k - vecs.length) ((-1 : Int), (0 : ℚ)),
      ¬ valid p = true := by
    intro p hp
    rw [List.eq_of_mem_replicate hp, hvalid]
    simp
  have hsearch : faissSearch vecs qn k =
      sorted.take k ++ List.replicate (k - vecs.length) ((-1 : Int), (0 : ℚ)) := by
    rw [faissSearch]
  have hfil : (faissSearch vecs qn k).filter valid = sorted.take k := by
    rw [hsearch, List.filter_append, List.filter_eq_self.mpr htake_valid,
      List.filter_eq_nil_iff.mpr hpad, List.append_nil]
  refine ⟨?_, ?_, ?_⟩
  · rw [hfil, List.length_take, hsortlen, hlen]
  · intro p hp
    rw [hfil] at hp
    have hv := htake_valid p hp
    rw [hvalid] at hv
    simp only [Bool.and_eq_true, decide_eq_true_eq] at hv
    rcases hsortmem p (List.mem_of_mem_take hp) with ⟨i, hi, rfl⟩
    have hmem : vecs.getD i [] ∈ vecs := by
      rw [List.getD_eq_getElem vecs [] hi]
      exact List.getElem_mem hi
    have hsb := score_bounds qn (vecs.getD i []) hq (hunit _ hmem)
    exact ⟨by omega, hsb.1, hsb.2⟩
  · rw [hfil]
    exact hsorted_pw.sublist (List.take_sublist k sorted)

/-! ## Claim C5 -/

/-- C5: querying a built index of `N` passages (unit-norm stored vectors and
query vector, as `normalize_L2` guarantees; lengths matching, as `build`
guarantees) succeeds and returns exactly `min topK N` results — in
particular at most `min topK N` — each with an id below `N`, passage text
`passages[id]`, score within `[-1, 1]` (Cauchy-Schwarz for unit vectors),
and the list sorted by descending score; padding ids outside `[0, N)` from
the underlying search are filtered out. -/
theorem c5_query_contract (ctx : EncCtx) (st : EmbState) (vecs : List Vec)
    (q : String) (k : Nat) (qv : Vec)
    (hidx : st.index = some vecs)
    (hlen : vecs.length = st.passages.length)
    (hunit : ∀ v ∈ vecs, sqNorm v = 1)
    (henc : ctx.encode [q] = .ok [qv])
    (hq : sqNorm (ctx.normalize qv) = 1) :
    ∃ rs : List QueryResult, EmbeddingsIndex.query ctx st q k = .ok rs ∧
      rs.length = min k st.passages.length ∧
      (∀ r ∈ rs, r.id < st.passages.length ∧
        r.passage = st.passages.getD r.id "" ∧ -1 ≤ r.score ∧ r.score ≤ 1) ∧
      rs.Pairwise (fun a b => b.score ≤ a.score) := by
  have hquery : EmbeddingsIndex.query ctx st q k =
      .ok (((faissSearch vecs (ctx.normalize qv) k).filter
          (fun p => decide (0 ≤ p.1) && decide (p.1 < (st.passages.length : Int)))).map
        (fun p => { id := p.1.toNat, score := p.2,
                    passage := st.passages.getD p.1.toNat "" })) := by
    simp [EmbeddingsIndex.query, hidx, henc]
  rcases faiss_filter_spec vecs (ctx.normalize qv) k st.passages.length hlen hunit hq
    with ⟨hlen2, hmem2, hpw2⟩
  refine ⟨_, hquery, ?_, ?_, ?_⟩
  · rw [List.length_map, hlen2]
  · intro r hr
    rcases List.mem_map.mp hr with ⟨p, hp, rfl⟩
    rcases hmem2 p hp with ⟨h1, h2, h3⟩
    exact ⟨h1, rfl, h2, h3⟩
  · rw [List.pairwise_map]
    exact hpw2

theorem c5_witness :
    (stTwo.index = some [[(1 : ℚ)], [(-1 : ℚ)]]) ∧
    ∃ rs : List QueryResult, EmbeddingsIndex.query encConst stTwo "q" 10 = .ok rs ∧
      rs.length = min 10 stTwo.passages.length ∧
      (∀ r ∈ rs, r.id < stTwo.passages.length ∧
        r.passage = stTwo.passages.getD r.id "" ∧ -1 ≤ r.score ∧ r.score ≤ 1) ∧
      rs.Pairwise (fun a b => b.score ≤ a.score) :=
  ⟨rfl, c5_query_contract encConst stTwo [[(1 : ℚ)], [(-1 : ℚ)]] "q" 10 [1] rfl rfl
    (by intro v hv
        rcases List.mem_cons.mp hv with rfl | hv
        · norm_num [sqNorm, dot]
        · rw [List.mem_singleton] at hv
          subst hv
          norm_num [sqNorm, dot])
    rfl
    (by norm_num [sqNorm, dot, encConst])⟩

/-! ## Claim C8 -/

theorem dedupeGo_spec : ∀ (l seen acc : List String),
    ∃ l2, dedupeGo seen acc l = acc ++ l2 ∧ List.Sublist l2 l ∧
      (∀ x ∈ l2, x ∉ seen) ∧ l2.Nodup ∧
      (∀ x ∈ l, x ∉ seen → x ∈ acc ++ l2) := by
  intro l
  induction l with
  | nil =>
    intro seen acc
    exact ⟨[], by simp [dedupeGo], List.Sublist.refl [], by simp, by simp⟩
  | cons p rest ih =>
    intro seen acc
    by_cases hp : p ∈ seen
    · rcases ih seen acc with ⟨l2, h1, h2, h3, h4, h5⟩
      refine ⟨l2, ?_, h2.cons p, h3, h4, ?_⟩
      · rw [dedupeGo, if_pos hp]
        exact h1
      · intro x hx hxs
        rcases List.mem_cons.mp hx with rfl | hx
        · exact absurd hp hxs
        · exact h5 x hx hxs
    · rcases ih (p :: seen) (acc ++ [p]) with ⟨l2, h1, h2, h3, h4, h5⟩
      refine ⟨p :: l2, ?_, h2.cons₂ p, ?_, ?_, ?_⟩
      · rw [dedupeGo, if_neg hp, h1, List.append_assoc]
        rfl
      · intro x hx
        rcases List.mem_cons.mp hx with rfl | hx
        · exact hp
        · intro hxs
          exact h3 x hx (by simp [hxs])
      · refine List.Nodup.cons ?_ h4
        intro hpl
        exact h3 p hpl (by simp)
      · intro x hx hxs
        rcases List.mem_cons.mp hx with rfl | hx
        · simp
        · by_cases hxp : x = p
          · subst hxp
            simp
          · have := h5 x hx (by simp [hxs, hxp])
            simpa [List.append_assoc] using this

/-- C8 counterexample: the claim quantifies over *every* pair of indices
with passage lists `[a, b]` and `[b, c]`; when the labels collide (here
`a = c`), exact-text dedupe collapses them and the result is not
`[a, b, c]`. -/
theorem c8_counterexample :
    mergedPassages ["x", "y"] ["y", "x"] = ["x", "y"] ∧
    mergedPassages ["x", "y"] ["y", "x"] ≠ ["x", "y", "x"] := by
  refine ⟨by decide, by decide⟩

/-- C8 (amended): merging concatenates the passage lists existing-first and
deduplicates by exact text keeping first occurrences — the result is
duplicate-free, an order-preserving sublist of the concatenation containing
exactly its elements — and the merge path rebuilds a fresh index from that
deduplicated sequence.  For *pairwise-distinct* labels `a`, `b`, `c`,
merging `[a, b]` with `[b, c]` passes exactly `[a, b, c]` to `build`. -/
theorem c8_merge_dedupe (existing uploaded : List String) (a b c : String)
    (hab : a ≠ b) (hac : a ≠ c) (hbc : b ≠ c) :
    (mergedPassages existing uploaded).Nodup ∧
    List.Sublist (mergedPassages existing uploaded) (existing ++ uploaded) ∧
    (∀ x, x ∈ mergedPassages existing uploaded ↔ x ∈ existing ++ uploaded) ∧
    (∀ (ctx : EncCtx) (est ust : EmbState), est.passages = existing →
      ust.passages = uploaded →
      mergeIndices ctx est ust =
        EmbeddingsIndex.build ctx EmbState.initial (mergedPassages existing uploaded)) ∧
    mergedPassages [a, b] [b, c] = [a, b, c] := by
  rcases dedupeGo_spec (existing ++ uploaded) [] [] with ⟨l2, h1, h2, h3, h4, h5⟩
  have hmp : mergedPassages existing uploaded = l2 := by
    rw [mergedPassages, dedupePassages, h1]
    rfl
  refine ⟨by rw [hmp]; exact h4, by rw [hmp]; exact h2, ?_, ?_, ?_⟩
  · intro x
    rw [hmp]
    constructor
    · intro hx
      exact h2.subset hx
    · intro hx
      simpa using h5 x hx (by simp)
  · intro ctx est ust he hu
    rw [mergeIndices, he, hu]
  · rw [mergedPassages, dedupePassages]
    show dedupeGo [] [] [a, b, b, c] = [a, b, c]
    rw [dedupeGo, if_neg (List.not_mem_nil a)]
    rw [dedupeGo, if_neg (by simp [Ne.symm hab])]
    rw [dedupeGo, if_pos (by simp)]
    rw [dedupeGo, if_neg (by simp [Ne.symm hac, Ne.symm hbc])]
    rw [dedupeGo]
    simp

theorem c8_witness :
    ("a" ≠ "b") ∧ ("a" ≠ "c") ∧ ("b" ≠ "c") ∧
    (mergedPassages ["x"] ["y"]).Nodup ∧
    List.Sublist (mergedPassages ["x"] ["y"]) (["x"] ++ ["y"]) ∧
    mergedPassages ["a", "b"] ["b", "c"] = ["a", "b", "c"] := by
  have h := c8_merge_dedupe ["x"] ["y"] "a" "b" "c" (by decide) (by decide) (by decide)
  exact ⟨by decide, by decide, by decide, h.1, h.2.1, h.2.2.2.2⟩

/-! ## Claim C9 -/



/-- C9 counterexample: a batch containing an existing file of unsupported
format (`bad.txt`, handed to `Image.open` which raises) aborts with an
error instead of skipping it — the following good document is not
processed, unlike the claim's skip-and-continue behaviour (which does hold
for *missing* paths). -/
theorem c9_counterexample :
    ingest_files worldDemo ["bad.txt", "good.png"] true 800 150 =
      .error .unsupportedFormat ∧
    ingest_files worldDemo ["good.png"] true 800 150 =
      .ok [{ source := "good.png", page := 1, chunk_index := 1,
             text := "hello world.",
             label := "(source:good.png page:1 chunk:1)\nhello world." }] ∧
    ingest_files worldDemo ["bad.txt", "good.png"] true 800 150 ≠
      ingest_files worldDemo ["good.png"] true 800 150 := by
  refine ⟨by decide, by decide, by decide⟩

/-- C9 (amended): a *missing* path anywhere in the batch is skipped with a
warning and the remaining documents produce exactly the passages they would
produce were the bad path absent; but an existing *unsupported-format*
(non-PDF, non-image) path is not skipped — `Image.open` raises and the
whole batch aborts. -/
theorem c9_ingest_amended (world : String → Option DocContent)
    (paths1 paths2 : List String) (p : String) (useSel : Bool) (maxT ovT : Nat) :
    (world p = none →
      ingest_files world (paths1 ++ p :: paths2) useSel maxT ovT =
        ingest_files world (paths1 ++ paths2) useSel maxT ovT) ∧
    (¬ hasPdfExt p = true → world p = some .other →
      ingest_files world (p :: paths2) useSel maxT ovT =
        .error .unsupportedFormat) := by
  constructor
  · intro hnone
    induction paths1 with
    | nil =>
      show ingest_files world (p :: paths2) useSel maxT ovT = _
      rw [ingest_files, hnone]
      rfl
    | cons q paths1 ih =>
      rw [List.cons_append, List.cons_append, ingest_files, ingest_files]
      cases hwq : world q with
      | none => exact ih
      | some content =>
        by_cases hpdf : hasPdfExt q = true
        · simp only [hpdf, if_true]
          cases content with
          | pdf pages => rw [ih]
          | image t => rfl
          | other => rfl
        · simp only [hpdf, Bool.false_eq_true, if_false]
          cases content with
          | pdf pages => rfl
          | image t => rw [ih]
          | other => rfl
  · intro hnpdf hw
    rw [ingest_files, hw]
    simp only [hnpdf, Bool.false_eq_true, if_false]

theorem c9_amended_witness :
    (worldDemo "missing.png" = none) ∧
    ingest_files worldDemo (["good.png"] ++ "missing.png" :: []) true 800 150 =
      ingest_files worldDemo (["good.png"] ++ []) true 800 150 ∧
    (¬ hasPdfExt "bad.txt" = true) ∧ (worldDemo "bad.txt" = some .other) ∧
    ingest_files worldDemo ["bad.txt"] true 800 150 = .error .unsupportedFormat := by
  have h := c9_ingest_amended worldDemo ["good.png"] [] "missing.png" true 800 150
  have h2 := c9_ingest_amended worldDemo [] [] "bad.txt" true 800 150
  exact ⟨rfl, h.1 rfl, by decide, rfl, h2.2 (by decide) rfl⟩

/-! ## Claim C10: sentence splitting -/


theorem hbp_pair (a b : Char) (ha : isSentEnd a = true) (hb : pyWs b = true) :
    ∀ (xs ys : List Char), hasBreakPair (xs ++ a :: b :: ys) = true := by
  intro xs
  induction xs with
  | nil => intro ys; simp [hasBreakPair, ha, hb]
  | cons x xs ih =>
    intro ys
    cases xs with
    | nil => simp [hasBreakPair, ha, hb]
    | cons x2 xs2 =>
      show hasBreakPair (x :: x2 :: (xs2 ++ a :: b :: ys)) = true
      rw [hasBreakPair]
      have h2 := ih ys
      rw [List.cons_append] at h2
      rw [h2]
      simp

theorem hbp_cons_false (a : Char) (l : List Char) (h : hasBreakPair (a :: l) = false) :
    hasBreakPair l = false := by
  cases l with
  | nil => rfl
  | cons b rest =>
    rw [hasBreakPair] at h
    exact (Bool.or_eq_false_iff.mp h).2

theorem hbp_append_right (xs ys : List Char) (h : hasBreakPair (xs ++ ys) = false) :
    hasBreakPair ys = false := by
  induction xs with
  | nil => exact h
  | cons x xs ih =>
    rw [List.cons_append] at h
    exact ih (hbp_cons_false x _ h)

theorem hbp_append_left (xs ys : List Char) (h : hasBreakPair (xs ++ ys) = false) :
    hasBreakPair xs = false := by
  induction xs with
  | nil => rfl
  | cons x xs ih =>
    cases xs with
    | nil => rfl
    | cons y rest =>
      rw [List.cons_append, List.cons_append] at h
      rw [hasBreakPair] at h ⊢
      rcases Bool.or_eq_false_iff.mp h with ⟨h1, h2⟩
      rw [h1]
      rw [← List.cons_append] at h2
      rw [ih h2]
      rfl

theorem dropWhile_dropWhile (p : Char → Bool) (l : List Char) :
    List.dropWhile p (List.dropWhile p l) = List.dropWhile p l := by
  induction l with
  | nil => rfl
  | cons x xs ih =>
    by_cases hx : p x = true
    · rw [List.dropWhile_cons_of_pos hx]
      exact ih
    · rw [List.dropWhile_cons_of_neg hx, List.dropWhile_cons_of_neg hx]

theorem strip_decomp (cs : List Char) :
    cs.dropWhile pyWs =
      pyStripL cs ++ ((cs.dropWhile pyWs).reverse.takeWhile pyWs).reverse := by
  conv_lhs => rw [← List.reverse_reverse (cs.dropWhile pyWs),
    ← List.takeWhile_append_dropWhile pyWs (cs.dropWhile pyWs).reverse]
  rw [List.reverse_append]
  rfl

theorem hbp_strip (cs : List Char) (h : hasBreakPair cs = false) :
    hasBreakPair (pyStripL cs) = false := by
  have h1 : hasBreakPair (cs.dropWhile pyWs) = false := by
    have hc : cs = cs.takeWhile pyWs ++ cs.dropWhile pyWs :=
      (List.takeWhile_append_dropWhile pyWs cs).symm
    rw [hc] at h
    exact hbp_append_right _ _ h
  rw [strip_decomp cs] at h1
  exact hbp_append_left _ _ h1

theorem strip_ne_nil (cs : List Char) (h : ∃ c ∈ cs, pyWs c = false) :
    pyStripL cs ≠ [] := by
  rcases h with ⟨c, hc, hcw⟩
  have h1 : c ∈ cs.dropWhile pyWs := by
    have hc2 : c ∈ cs.takeWhile pyWs ++ cs.dropWhile pyWs := by
      rw [List.takeWhile_append_dropWhile]
      exact hc
    rcases List.mem_append.mp hc2 with hc3 | hc3
    · exact absurd (List.mem_takeWhile_imp hc3) (by simp [hcw])
    · exact hc3
  intro hnil
  rw [pyStripL, List.reverse_eq_nil_iff, List.dropWhile_eq_nil_iff] at hnil
  exact absurd (hnil c (List.mem_reverse.mpr h1)) (by simp [hcw])

theorem pyStripL_idem (cs : List Char) : pyStripL (pyStripL cs) = pyStripL cs := by
  have hb : (pyStripL cs).reverse.dropWhile pyWs = (pyStripL cs).reverse := by
    rw [pyStripL, List.reverse_reverse]
    exact dropWhile_dropWhile pyWs (cs.dropWhile pyWs).reverse
  have hpre : pyStripL cs <+: cs.dropWhile pyWs := ⟨_, (strip_decomp cs).symm⟩
  have ha : (pyStripL cs).dropWhile pyWs = pyStripL cs := by
    cases hdn : pyStripL cs with
    | nil => rfl
    | cons x rest =>
      by_cases hpx : pyWs x = true
      · exfalso
        rcases hpre with ⟨t, ht⟩
        rw [hdn, List.cons_append] at ht
        have hfix : (cs.dropWhile pyWs).dropWhile pyWs = cs.dropWhile pyWs :=
          dropWhile_dropWhile pyWs cs
        rw [← ht, List.dropWhile_cons_of_pos hpx] at hfix
        have hlen := congrArg List.length hfix
        have hle : (List.dropWhile pyWs (rest ++ t)).length ≤ (rest ++ t).length :=
          (List.dropWhile_suffix pyWs).length_le
        simp only [List.length_cons, List.length_append] at hlen hle
        omega
      · rw [List.dropWhile_cons_of_neg hpx]
  show ((((pyStripL cs).dropWhile pyWs).reverse.dropWhile pyWs)).reverse = pyStripL cs
  rw [ha, hb, List.reverse_reverse]

theorem sentFold_noBreak : ∀ (cs acc : List Char),
    hasBreakPair (acc.reverse ++ cs) = false →
    cs.foldl sentStep ⟨[], acc, false⟩ = ⟨[], cs.reverse ++ acc, false⟩ := by
  intro cs
  induction cs with
  | nil =>
    intro acc _
    simp
  | cons c cs ih =>
    intro acc h
    have hstep : sentStep ⟨[], acc, false⟩ c = ⟨[], c :: acc, false⟩ := by
      cases hacc : acc with
      | nil => simp [sentStep, headSentEnd]
      | cons p acc2 =>
        by_cases hcond : (pyWs c && headSentEnd (p :: acc2)) = true
        · exfalso
          simp only [Bool.and_eq_true] at hcond
          rcases hcond with ⟨hc, hp⟩
          rw [headSentEnd] at hp
          rw [hacc] at h
          have : (p :: acc2).reverse ++ c :: cs = acc2.reverse ++ p :: c :: cs := by
            simp
          rw [this, hbp_pair p c hp hc acc2.reverse cs] at h
          exact Bool.true_eq_false.mp h
        · simp [sentStep, hcond]
    rw [List.foldl_cons, hstep]
    rw [ih (c :: acc) (by simpa using h)]
    simp

theorem sentSegments_noBreak (cs : List Char) (h : hasBreakPair cs = false) :
    sentSegments cs = [cs] := by
  rw [sentSegments, sentFold_noBreak cs [] (by simpa using h)]
  simp

theorem addOverlap_length (ov : Nat) (l : List String) :
    (addOverlap ov l).length = l.length := by
  rw [addOverlap.eq_def]
  by_cases h : 0 < ov ∧ 1 < l.length
  · rw [if_pos h]
    cases l with
    | nil => rfl
    | cons c0 rest => simp [addOverlapGo_length]
  · rw [if_neg h]

theorem chunks_single_ne (t : String) (M ov : Nat) (hM : 1 ≤ M)
    (ht : pyWords t ≠ []) : chunk_sentences_to_chunks [t] M ov ≠ [] := by
  have hne : ∀ l : List String, l ≠ [] → addOverlap ov l ≠ [] := by
    intro l hl
    intro hnil
    have := addOverlap_length ov l
    rw [hnil] at this
    exact hl (List.eq_nil_of_length_eq_zero this.symm)
  rw [chunk_sentences_to_chunks]
  rw [if_neg (by simp)]
  apply hne
  by_cases hlong : tokens_length t > M
  · rcases hr : procLongSentence M (⟨[], [], 0⟩ : ChunkState).chunks (pyWords t)
      with ⟨cs, piece, pt⟩
    have hinv := procLongSentence_inv M hM (pyWords t)
      (⟨[], [], 0⟩ : ChunkState).chunks (pyWords_clean t)
    rw [hr] at hinv
    have hpne : piece ≠ [] := fun hn => ht (hinv.2.2.2.2.2 hn)
    rw [show chunkLoop M [t] ⟨[], [], 0⟩ =
        chunkLoop M [] (if piece.isEmpty then
          { chunks := cs, cur := (⟨[], [], 0⟩ : ChunkState).cur,
            cur_tokens := (⟨[], [], 0⟩ : ChunkState).cur_tokens }
        else if (⟨[], [], 0⟩ : ChunkState).cur_tokens + pt ≤ M then
          { chunks := cs
            cur := (⟨[], [], 0⟩ : ChunkState).cur ++ [joinSp piece]
            cur_tokens := (⟨[], [], 0⟩ : ChunkState).cur_tokens + pt }
        else
          { chunks := cs ++ flushOf (⟨[], [], 0⟩ : ChunkState).cur
            cur := [joinSp piece]
            cur_tokens := pt }) from by
      rw [chunkLoop_long_step M t [] ⟨[], [], 0⟩ hlong cs piece pt hr]
      split
      · rfl
      · split
        · rfl
        · rfl]
    have hpe : piece.isEmpty = false := by
      cases piece with
      | nil => exact absurd rfl hpne
      | cons a b => rfl
    rw [hpe]
    simp only [Bool.false_eq_true, if_false]
    by_cases hfit : (⟨[], [], 0⟩ : ChunkState).cur_tokens + pt ≤ M
    · rw [if_pos hfit]
      rw [chunkLoop]
      simp [flushOf]
    · rw [if_neg hfit]
      rw [chunkLoop]
      simp [flushOf]
  · have hstep : chunkLoop M [t] ⟨[], [], 0⟩ = chunkLoop M []
        { chunks := ([] : List String)
          cur := [] ++ [t]
          cur_tokens := 0 + tokens_length t } := by
      simp [chunkLoop, hlong]
    rw [hstep, chunkLoop]
    simp [flushOf]

/-- C10: a page text containing a non-whitespace character but no
sentence-ending punctuation followed by whitespace yields exactly one
sentence — the stripped whole text — and `chunk_page_text` then produces at
least one passage (for any `maxTokens ≥ 1`); whitespace-only text yields no
sentences and no passages. -/
theorem c10_sentence_splitting (text source : String) (pno M ov : Nat) (hM : 1 ≤ M) :
    ((∃ c ∈ text.data, pyWs c = false) → hasBreakPair text.data = false →
      split_into_sentences text = [pyStrip text] ∧
      1 ≤ (chunk_page_text text source pno M ov).length) ∧
    ((∀ c ∈ text.data, pyWs c = true) →
      split_into_sentences text = [] ∧ chunk_page_text text source pno M ov = []) := by
  constructor
  · intro hex hnb
    have htne : (pyStrip text).data ≠ [] := strip_ne_nil text.data hex
    have hnb2 : hasBreakPair (pyStrip text).data = false := hbp_strip text.data hnb
    have hsegs : sentSegments (pyStrip text).data = [(pyStrip text).data] :=
      sentSegments_noBreak _ hnb2
    have hid : pyStrip (pyStrip text) = pyStrip text := by
      show String.mk (pyStripL (String.mk (pyStripL text.data)).data) = _
      rw [show (String.mk (pyStripL text.data)).data = pyStripL text.data from rfl]
      rw [pyStripL_idem]
      rfl
    have hsplit : split_into_sentences text = [pyStrip text] := by
      simp only [split_into_sentences]
      rw [if_neg (by simp [List.isEmpty_iff, htne])]
      rw [hsegs]
      simp only [List.map_cons, List.map_nil]
      rw [show String.mk (pyStrip text).data = pyStrip text from rfl]
      rw [hid]
      rw [List.filter_cons_of_pos (by simp [List.isEmpty_iff, htne])]
      rfl
    refine ⟨hsplit, ?_⟩
    have hw : pyWords (pyStrip text) ≠ [] := by
      rw [pyWords_strip]
      intro hnil
      rw [pyWords] at hnil
      rw [List.map_eq_nil_iff] at hnil
      exact pyWordsL_ne_nil text.data hex hnil
    have hchunks : chunk_sentences_to_chunks [pyStrip text] M ov ≠ [] :=
      chunks_single_ne (pyStrip text) M ov hM hw
    show 1 ≤ ((chunk_sentences_to_chunks (split_into_sentences text) M ov).enum.map _).length
    rw [hsplit, List.length_map, List.enum_length]
    exact Nat.one_le_iff_ne_zero.mpr
      (fun h0 => hchunks (List.eq_nil_of_length_eq_zero h0))
  · intro hall
    have ht0 : pyStripL text.data = [] := by
      rw [pyStripL, List.dropWhile_eq_nil_iff.mpr hall]
      rfl
    have hsplit : split_into_sentences text = [] := by
      simp only [split_into_sentences]
      rw [if_pos (by simp [show (pyStrip text).data = pyStripL text.data from rfl, ht0])]
    refine ⟨hsplit, ?_⟩
    show ((chunk_sentences_to_chunks (split_into_sentences text) M ov).enum.map _) = []
    rw [hsplit, chunk_sentences_to_chunks]
    rfl

theorem c10_witness :
    (∃ c ∈ ("hello world." : String).data, pyWs c = false) ∧
    hasBreakPair ("hello world." : String).data = false ∧
    split_into_sentences "hello world." = [pyStrip "hello world."] ∧
    1 ≤ (chunk_page_text "hello world." "doc.pdf" 1 800 150).length ∧
    (∀ c ∈ ("  " : String).data, pyWs c = true) ∧
    split_into_sentences "  " = [] ∧
    chunk_page_text "  " "doc.pdf" 1 800 150 = [] := by
  have h1 := (c10_sentence_splitting "hello world." "doc.pdf" 1 800 150
    (by decide)).1 (by decide) (by decide)
  have h2 := (c10_sentence_splitting "  " "doc.pdf" 1 800 150
    (by decide)).2 (by decide)
  exact ⟨by decide, by decide, h1.1, h1.2, by decide, h2.1, h2.2⟩
